import Mathlib

/-!
# Verification of the modifier registry, the chain resolver and the
aggregation lowering of `bridge`

Shallow embedding of `sigma/evaluator/modifiers/modifiers.go` and of
`sigma/evaluator/evaluate_aggregation.go`.

## Data model

* A Go `string` is an immutable sequence of bytes that need not be valid
  UTF-8.  It is embedded as `GoString := List Nat`, every element standing for
  one byte (`0 .. 255`).  `GoString.WF` states that all elements are bytes.
* A Go `rune` is embedded as a `Nat` (all runes handled here are non-negative).
* A Go `any` holding a field or a value is embedded as `Value`.
* `(T, error)` results are embedded as `Except GoString T`, the error carrying
  its message.

The pieces of the Go standard library the file calls (`unicode/utf8`,
`unicode/utf16`, `encoding/base64`, `strings.ToLower`, `fmt`) are embedded
after their library source; each such definition says so.
-/

namespace Bridge

/-! ## Go strings -/

/-- Go `string`: a sequence of bytes. -/
abbrev GoString := List Nat

/-- All elements of the sequence are byte values. -/
def GoString.WF (s : GoString) : Prop := ∀ b ∈ s, b < 256

instance (s : GoString) : Decidable (GoString.WF s) := by
  unfold GoString.WF; infer_instance

/-- Go `utf8.RuneError`, the replacement character U+FFFD. -/
def RuneError : Nat := 0xFFFD

/-- Go `utf8.AppendRune` (what `strings.Builder.WriteRune` appends): the UTF-8
encoding of `r`; surrogates and values above `utf8.MaxRune` are written as
`RuneError`.  Shifts are divisions by powers of two, masks are remainders, and
each `|` joins disjoint bit fields, so it is an addition. -/
def encodeRune (r : Nat) : GoString :=
  if r < 0x80 then [r]
  else if r ≤ 0x7FF then [0xC0 + r / 64, 0x80 + r % 64]
  else if 0x10FFFF < r ∨ (0xD800 ≤ r ∧ r ≤ 0xDFFF) then [0xEF, 0xBF, 0xBD]
  else if r ≤ 0xFFFF then [0xE0 + r / 4096, 0x80 + r / 64 % 64, 0x80 + r % 64]
  else [0xF0 + r / 262144, 0x80 + r / 4096 % 64, 0x80 + r / 64 % 64, 0x80 + r % 64]

/-- The bytes of a Go string literal written in the source (UTF-8). -/
def lit (s : String) : GoString := s.toList.flatMap (fun c => encodeRune c.toNat)

/-- Lower bound `accept.lo` of the second byte, by first byte (Go's
`utf8.acceptRanges` selected through `utf8.first`). -/
def acceptLo (s0 : Nat) : Nat :=
  if s0 = 0xE0 then 0xA0 else if s0 = 0xF0 then 0x90 else 0x80

/-- Upper bound `accept.hi` of the second byte, by first byte. -/
def acceptHi (s0 : Nat) : Nat :=
  if s0 = 0xED then 0x9F else if s0 = 0xF4 then 0x8F else 0xBF

/-- Sequence length announced by the first byte (`utf8.first[s0] & 7`), with
`0` for the first bytes the table marks invalid (`xx`): `0x80..0xC1` and
`0xF5..0xFF`. -/
def firstSize (s0 : Nat) : Nat :=
  if s0 < 0x80 then 1
  else if s0 < 0xC2 then 0
  else if s0 < 0xE0 then 2
  else if s0 < 0xF0 then 3
  else if s0 < 0xF5 then 4
  else 0

/-- Go `utf8.DecodeRuneInString`: the first rune of `s` and its width in bytes.
An empty string gives `(RuneError, 0)`, an invalid encoding `(RuneError, 1)`. -/
def decodeRune (s : GoString) : Nat × Nat :=
  match s with
  | [] => (RuneError, 0)
  | s0 :: _ =>
    let sz := firstSize s0
    if sz = 1 then (s0, 1)
    else if sz = 0 then (RuneError, 1)
    else if s.length < sz then (RuneError, 1)
    else
      let s1 := s.getD 1 0
      if s1 < acceptLo s0 ∨ acceptHi s0 < s1 then (RuneError, 1)
      else if sz ≤ 2 then (s0 % 32 * 64 + s1 % 64, 2)
      else
        let s2 := s.getD 2 0
        if s2 < 0x80 ∨ 0xBF < s2 then (RuneError, 1)
        else if sz ≤ 3 then (s0 % 16 * 4096 + s1 % 64 * 64 + s2 % 64, 3)
        else
          let s3 := s.getD 3 0
          if s3 < 0x80 ∨ 0xBF < s3 then (RuneError, 1)
          else (s0 % 8 * 262144 + s1 % 64 * 4096 + s2 % 64 * 64 + s3 % 64, 4)

/-- The runes a Go `for _, char := range s` loop visits, with `fuel` bounding
the number of iterations: each iteration decodes one rune at the current
position and advances by its width. -/
def rangeRunes : Nat → GoString → List Nat
  | 0, _ => []
  | fuel + 1, s =>
    match s with
    | [] => []
    | _ :: _ => (decodeRune s).1 :: rangeRunes fuel (s.drop (decodeRune s).2)

/-- The runes of a Go string, as `range s` and `[]rune(s)` produce them.  Every
iteration consumes at least one byte, so `s.length` iterations suffice. -/
def runesOf (s : GoString) : List Nat := rangeRunes s.length s

/-- Go `unicode.ToLower`.  The ASCII branch is the library's code; for runes
above `unicode.MaxASCII` the library consults its Unicode case tables, which
are data of the standard library and are taken as the parameter `caseTable`. -/
def unicodeToLower (caseTable : Nat → Nat) (r : Nat) : Nat :=
  if r ≤ 0x7F then (if 0x41 ≤ r ∧ r ≤ 0x5A then r + 32 else r) else caseTable r

/-- Go `strings.ToLower`: ASCII-only strings are lower-cased byte by byte,
other strings go through `strings.Map(unicode.ToLower, s)`, which re-encodes
every rune of the string after mapping it. -/
def ToLower (caseTable : Nat → Nat) (s : GoString) : GoString :=
  if s.all (fun c => decide (c < 0x80)) then
    s.map (fun c => if 0x41 ≤ c ∧ c ≤ 0x5A then c + 32 else c)
  else
    (runesOf s).flatMap (fun c => encodeRune (unicodeToLower caseTable c))

/-! ## `modifiers.go` -/

/-- EscapeBackslashes takes a string and doubles all backslashes: the loop
over the runes of `input`, with the `strings.Builder` as accumulator. -/
def EscapeBackslashes (input : GoString) : GoString :=
  (runesOf input).foldl
    (fun builder char =>
      let builder := if char = 0x5C then builder ++ encodeRune 0x5C else builder
      builder ++ encodeRune char)
    []

/-- A Go `any` as the comparators receive it, by dynamic type: the nil
interface, a `string`, a `[]byte`, an `int`, or a value of any other dynamic
type, which is represented by the text `fmt.Sprint` prints for it. -/
inductive Value where
  | nil
  | str (s : GoString)
  | bytes (b : GoString)
  | int (i : Int)
  | other (sprint : GoString)
  deriving DecidableEq, Repr

/-- Decimal digits of a natural number, as bytes. -/
def formatNat (n : Nat) : GoString := (Nat.toDigits 10 n).map Char.toNat

/-- The text `fmt.Sprint` prints for an `int`. -/
def formatInt (i : Int) : GoString :=
  if i < 0 then 0x2D :: formatNat i.natAbs else formatNat i.toNat

/-- The function `coerceString`: a `string` is returned as it is, a `[]byte` is
converted, everything else is printed with `fmt.Sprint`. -/
def coerceString (v : Value) : GoString :=
  match v with
  | .str vv => vv
  | .bytes vv => vv
  | .nil => lit "<nil>"
  | .int i => formatInt i
  | .other sprint => sprint

/-- The implementations of the `Comparator` interface. -/
inductive Comparator where
  | baseComparator
  | contains
  | endswith
  | startswith
  | baseComparatorCaseSensitive
  | containsCS
  | endswithCS
  | startswithCS
  | re
  | cidr
  | gt
  | gte
  | lt
  | lte
  deriving DecidableEq, Repr

/-- The method `Bridges` of each comparator.  `fmt.Sprintf` with `%v` verbs and
string arguments is the concatenation of the format's literal parts and the
arguments. -/
def Comparator.Bridges (caseTable : Nat → Nat) (c : Comparator) (field value : Value) :
    Except GoString GoString :=
  let lower := ToLower caseTable
  match c with
  | .baseComparator =>
    if field = Value.nil ∧ value = Value.str (lit "null") then .ok []
    else .ok (lower (coerceString field) ++ lit "=\"" ++
      lower (EscapeBackslashes (coerceString value)) ++ lit "\"")
  | .contains =>
    .ok (lower (coerceString field) ++ lit "=\"*" ++
      lower (EscapeBackslashes (coerceString value)) ++ lit "*\"")
  | .endswith =>
    .ok (lower (coerceString field) ++ lit "=\"*" ++
      lower (EscapeBackslashes (coerceString value)) ++ lit "\"")
  | .startswith =>
    .ok (lower (coerceString field) ++ lit "=\"" ++
      lower (EscapeBackslashes (coerceString value)) ++ lit "*\"")
  | .baseComparatorCaseSensitive =>
    if field = Value.nil ∧ value = Value.str (lit "null") then .ok []
    else .ok (lower (coerceString field) ++ lit "=\"" ++
      EscapeBackslashes (coerceString value) ++ lit "\"")
  | .containsCS =>
    .ok (lower (coerceString field) ++ lit "=\"*" ++
      EscapeBackslashes (coerceString value) ++ lit "*\"")
  | .endswithCS =>
    .ok (lower (coerceString field) ++ lit "=\"*" ++
      EscapeBackslashes (coerceString value) ++ lit "\"")
  | .startswithCS =>
    .ok (lower (coerceString field) ++ lit "=\"" ++
      EscapeBackslashes (coerceString value) ++ lit "*\"")
  | .re =>
    .ok (lit " | regex " ++ lower (coerceString field) ++ lit "=\"" ++
      EscapeBackslashes (coerceString value) ++ lit "\"")
  | .cidr =>
    .ok (lower (coerceString field) ++ lit "=\"" ++ coerceString value ++ lit "\"")
  | .gt =>
    .ok (lower (coerceString field) ++ lit " > \"" ++ coerceString value ++ lit "\"")
  | .gte =>
    .ok (lower (coerceString field) ++ lit " >= \"" ++ coerceString value ++ lit "\"")
  | .lt =>
    .ok (lower (coerceString field) ++ lit " < \"" ++ coerceString value ++ lit "\"")
  | .lte =>
    .ok (lower (coerceString field) ++ lit " <= \"" ++ coerceString value ++ lit "\"")

/-- The implementations of the `ValueModifier` interface. -/
inductive ValueModifier where
  | b64
  | wide
  deriving DecidableEq, Repr

/-- The alphabet of `base64.StdEncoding`: the character of a 6-bit group. -/
def base64Char (n : Nat) : Nat :=
  if n < 26 then 0x41 + n
  else if n < 52 then 0x61 + (n - 26)
  else if n < 62 then 0x30 + (n - 52)
  else if n = 62 then 0x2B
  else 0x2F

/-- Go `base64.StdEncoding.EncodeToString`: three bytes give four characters,
a final group of one or two bytes is padded with `=`. -/
def base64Encode : GoString → GoString
  | [] => []
  | [a] => [base64Char (a / 4), base64Char (a % 4 * 16), 0x3D, 0x3D]
  | [a, b] => [base64Char (a / 4), base64Char (a % 4 * 16 + b / 16), base64Char (b % 16 * 4), 0x3D]
  | a :: b :: c :: rest =>
    base64Char (a / 4) :: base64Char (a % 4 * 16 + b / 16) ::
      base64Char (b % 16 * 4 + c / 64) :: base64Char (c % 64) :: base64Encode rest

/-- Go `utf16.Encode`: the UTF-16 code units of a sequence of runes; a rune
above U+FFFF gives a surrogate pair, a surrogate or out-of-range value gives
U+FFFD. -/
def utf16Encode (s : List Nat) : List Nat :=
  s.flatMap (fun v =>
    if v < 0xD800 ∨ (0xE000 ≤ v ∧ v < 0x10000) then [v]
    else if 0x10000 ≤ v ∧ v ≤ 0x10FFFF then
      [0xD800 + (v - 0x10000) / 1024 % 1024, 0xDC00 + (v - 0x10000) % 1024]
    else [0xFFFD])

/-- The loop of `wide.Modify` that fills `bytes`: every code unit is stored
with `binary.LittleEndian.PutUint16`, low byte first. -/
def putUint16s (runes : List Nat) : GoString :=
  runes.flatMap (fun r => [r % 256, r / 256 % 256])

/-- The method `Modify` of each value modifier. -/
def ValueModifier.Modify (m : ValueModifier) (value : Value) : Except GoString Value :=
  match m with
  | .b64 => .ok (Value.str (base64Encode (coerceString value)))
  | .wide =>
    let runes := utf16Encode (runesOf (coerceString value))
    let bytes := putUint16s runes
    .ok (Value.str (coerceString (Value.bytes bytes)))

/-- The table `Comparators`. -/
def Comparators : List (GoString × Comparator) :=
  [ (lit "contains", .contains),
    (lit "endswith", .endswith),
    (lit "startswith", .startswith),
    (lit "re", .re),
    (lit "cidr", .cidr),
    (lit "gt", .gt),
    (lit "gte", .gte),
    (lit "lt", .lt),
    (lit "lte", .lte) ]

/-- The table `ComparatorsCaseSensitive`. -/
def ComparatorsCaseSensitive : List (GoString × Comparator) :=
  [ (lit "contains", .containsCS),
    (lit "endswith", .endswithCS),
    (lit "startswith", .startswithCS),
    (lit "re", .re),
    (lit "cidr", .cidr),
    (lit "gt", .gt),
    (lit "gte", .gte),
    (lit "lt", .lt),
    (lit "lte", .lte) ]

/-- The table `ValueModifiers`. -/
def ValueModifiers : List (GoString × ValueModifier) :=
  [ (lit "base64", .b64),
    (lit "wide", .wide) ]

/-- The error of `fmt.Errorf("unknown modifier %s", modifier)`. -/
def unknownModifierError (modifier : GoString) : GoString :=
  lit "unknown modifier " ++ modifier

/-- The error of
`fmt.Errorf("comparator modifier %s must be the last modifier", modifier)`. -/
def invalidOrderError (modifier : GoString) : GoString :=
  lit "comparator modifier " ++ modifier ++ lit " must be the last modifier"

/-- The `for i, modifier := range modifiers` loop of `getComparator`, from
index `i` on, over the remaining names; `len` is `len(modifiers)` and the
state is the pair of `valueModifiers` and `comparator` (`none` for a nil
interface).  A map lookup of a missing key gives nil. -/
def getComparatorLoop (comparators : List (GoString × Comparator)) (len : Nat) :
    Nat → List GoString → List ValueModifier → Option Comparator →
    Except GoString (List ValueModifier × Option Comparator)
  | _, [], valueModifiers, comparator => .ok (valueModifiers, comparator)
  | i, modifier :: rest, valueModifiers, comparator =>
    let comparatorModifier := comparators.lookup modifier
    let valueModifier := ValueModifiers.lookup modifier
    if comparatorModifier = none ∧ valueModifier = none then
      .error (unknownModifierError modifier)
    else if i < len - 1 ∧ comparators.lookup modifier ≠ none then
      .error (invalidOrderError modifier)
    else
      match valueModifier, comparatorModifier with
      | some vm, _ => getComparatorLoop comparators len (i + 1) rest (valueModifiers ++ [vm]) comparator
      | none, some cm => getComparatorLoop comparators len (i + 1) rest valueModifiers (some cm)
      | none, none => getComparatorLoop comparators len (i + 1) rest valueModifiers comparator

/-- The loop of the returned closure: the value modifiers are applied in
order, the first error ends the loop. -/
def applyModifiers : List ValueModifier → Value → Except GoString Value
  | [], value => .ok value
  | modifier :: rest, value =>
    match modifier.Modify value with
    | .error err => .error err
    | .ok value => applyModifiers rest value

/-- The function `getComparator`; the returned closure is a Lean function. -/
def getComparator (caseTable : Nat → Nat) (comparators : List (GoString × Comparator))
    (caseSensitive : Bool) (modifiers : List GoString) :
    Except GoString (Value → Value → Except GoString GoString) :=
  if modifiers.length = 0 then
    if caseSensitive then .ok (Comparator.baseComparatorCaseSensitive.Bridges caseTable)
    else .ok (Comparator.baseComparator.Bridges caseTable)
  else
    match getComparatorLoop comparators modifiers.length 0 modifiers [] none with
    | .error err => .error err
    | .ok (valueModifiers, comparator) =>
      let comparator :=
        match comparator with
        | none =>
          if caseSensitive then Comparator.baseComparatorCaseSensitive
          else Comparator.baseComparator
        | some c => c
      .ok (fun field value =>
        match applyModifiers valueModifiers value with
        | .error err => .error err
        | .ok value => comparator.Bridges caseTable field value)

/-- The function `GetComparator`. -/
def GetComparator (caseTable : Nat → Nat) (modifiers : List GoString) :
    Except GoString (Value → Value → Except GoString GoString) :=
  getComparator caseTable Comparators false modifiers

/-- The function `GetComparatorCaseSensitive`. -/
def GetComparatorCaseSensitive (caseTable : Nat → Nat) (modifiers : List GoString) :
    Except GoString (Value → Value → Except GoString GoString) :=
  getComparator caseTable ComparatorsCaseSensitive true modifiers

/-! ## `evaluate_aggregation.go` -/

/-- Modelled from the spec: the implementations of the interface
`sigma.AggregationFunc`, whose declarations are in package `sigma`.  Each of
`Count`, `Average`, `Sum`, `Min` and `Max` holds the optional field names
`Field` and `GroupedBy`, the empty string standing for an absent name; `other`
is a value of the interface of none of these types (the nil interface
included), which the type switch sends to its `default` case. -/
inductive AggregationFunc where
  | Count (Field GroupedBy : GoString)
  | Average (Field GroupedBy : GoString)
  | Sum (Field GroupedBy : GoString)
  | Min (Field GroupedBy : GoString)
  | Max (Field GroupedBy : GoString)
  | other
  deriving DecidableEq, Repr

/-- Modelled from the spec: the implementations of the interface
`sigma.AggregationExpr`, whose declarations are in package `sigma`.  The
fields of `Near` are not read by the evaluator.  A `Comparison` holds the
function, the operator, a string type whose text is one of `>`, `>=`, `<`,
`<=`, `==`, and the integer threshold; `other` is a value of the interface of
neither type (the nil interface included). -/
inductive AggregationExpr where
  | Near
  | Comparison (Func : AggregationFunc) (Op : GoString) (Threshold : Int)
  | other
  deriving DecidableEq, Repr

/-- Modelled from the spec: the part of the struct `RuleEvaluator` that the
aggregation lowering reads, the field-mapping table from a field name to the
ordered backend names. -/
structure RuleEvaluator where
  fieldmappings : List (GoString × List GoString)

/-- The map index expression `rule.fieldmappings[name]`: a missing key gives
the nil slice. -/
def RuleEvaluator.mapping (rule : RuleEvaluator) (name : GoString) : List GoString :=
  (rule.fieldmappings.lookup name).getD []

/-- The method `evaluateAggregationFunc`; string concatenation is list
append. -/
def RuleEvaluator.evaluateAggregationFunc (rule : RuleEvaluator)
    (aggregation : AggregationFunc) : Except GoString GoString :=
  match aggregation with
  | .Count Field GroupedBy =>
    if Field = [] then
      if GroupedBy ≠ [] then
        .ok (lit "| stats count by" ++ GroupedBy ++ lit "| sort -count")
      else
        .ok (lit "| sort -count")
    else
      let Field := if (rule.mapping Field).length ≠ 0 then (rule.mapping Field).getD 0 [] else Field
      if GroupedBy ≠ [] then
        let GroupedBy :=
          if (rule.mapping GroupedBy).length ≠ 0 then (rule.mapping GroupedBy).getD 0 []
          else GroupedBy
        .ok (lit "| stats count by" ++ Field ++ lit "," ++ GroupedBy ++ lit " | sort -count")
      else
        .ok (lit "| stats count by" ++ Field ++ lit " | sort -count")
  | .Average Field GroupedBy =>
    let Field := if (rule.mapping Field).length ≠ 0 then (rule.mapping Field).getD 0 [] else Field
    if GroupedBy ≠ [] then
      let GroupedBy :=
        if (rule.mapping GroupedBy).length ≠ 0 then (rule.mapping GroupedBy).getD 0 []
        else GroupedBy
      .ok (lit "| stats avg(" ++ Field ++ lit ") by " ++ Field ++ lit "," ++ GroupedBy ++
        lit " AS average | sort -average")
    else
      .ok (lit "| stats avg(" ++ Field ++ lit ") by " ++ Field ++
        lit " AS average | sort -average")
  | .Sum Field GroupedBy =>
    let Field := if (rule.mapping Field).length ≠ 0 then (rule.mapping Field).getD 0 [] else Field
    if GroupedBy ≠ [] then
      let GroupedBy :=
        if (rule.mapping GroupedBy).length ≠ 0 then (rule.mapping GroupedBy).getD 0 []
        else GroupedBy
      .ok ([] ++ (lit "| stats sum(" ++ Field ++ lit ") by " ++ Field ++ lit "," ++ GroupedBy ++
        lit " AS sum | sort -sum"))
    else
      .ok ([] ++ (lit "| stats sum(" ++ Field ++ lit ") by " ++ Field ++
        lit " AS sum | sort -sum"))
  | .Min Field GroupedBy =>
    let Field := if (rule.mapping Field).length ≠ 0 then (rule.mapping Field).getD 0 [] else Field
    if GroupedBy ≠ [] then
      let GroupedBy :=
        if (rule.mapping GroupedBy).length ≠ 0 then (rule.mapping GroupedBy).getD 0 []
        else GroupedBy
      .ok ([] ++ (lit "| stats min(" ++ Field ++ lit ") by " ++ Field ++ lit "," ++ GroupedBy ++
        lit " AS min | sort -min"))
    else
      .ok ([] ++ (lit "| stats min(" ++ Field ++ lit ") by " ++ Field ++
        lit " AS min | sort -min"))
  | .Max Field GroupedBy =>
    let Field := if (rule.mapping Field).length ≠ 0 then (rule.mapping Field).getD 0 [] else Field
    if GroupedBy ≠ [] then
      let GroupedBy :=
        if (rule.mapping GroupedBy).length ≠ 0 then (rule.mapping GroupedBy).getD 0 []
        else GroupedBy
      .ok (lit "| stats max(" ++ Field ++ lit ") by " ++ Field ++ lit "," ++ GroupedBy ++
        lit " AS max | sort -max")
    else
      .ok (lit "| stats max(" ++ Field ++ lit ") by " ++ Field ++
        lit " AS max | sort -max")
  | .other => .error (lit "unsupported aggregation function")

/-- The method `evaluateAggregationExpression`; `fmt.Sprintf("%d", ...)` prints
the threshold as `fmt.Sprint` prints an `int`. -/
def RuleEvaluator.evaluateAggregationExpression (rule : RuleEvaluator)
    (aggregation : AggregationExpr) : Except GoString GoString :=
  match aggregation with
  | .Near => .error (lit "near isn't supported yet")
  | .Comparison Func Op Threshold =>
    match rule.evaluateAggregationFunc Func with
    | .error err => .error err
    | .ok aggregationResult =>
      .ok (aggregationResult ++ lit " " ++ Op ++ lit " " ++ formatInt Threshold)
  | .other => .error (lit "unknown aggregation expression")

/-! ## The vocabulary of the specification -/

/-- The value-modifier names the specification lists. -/
def valueModifierNames : List GoString := [lit "base64", lit "wide"]

/-- The comparator names the specification lists. -/
def comparatorNames : List GoString :=
  [lit "contains", lit "endswith", lit "startswith", lit "re", lit "cidr",
   lit "gt", lit "gte", lit "lt", lit "lte"]

/-- A valid modifier chain in the specification's words: zero or more
value-modifier names followed by at most one comparator name, which is then the
last element. -/
def ValidChain (modifiers : List GoString) : Prop :=
  ∃ vs tail, modifiers = vs ++ tail ∧ (∀ m ∈ vs, m ∈ valueModifierNames) ∧
    (tail = [] ∨ ∃ c ∈ comparatorNames, tail = [c])

/-- The value after the value modifiers were applied one after the other, from
left to right, each to the result of the one before it. -/
def modifyInOrder (vms : List ValueModifier) (value : Value) : Except GoString Value :=
  vms.foldlM (fun v m => m.Modify v) value

/-- The comparator a chain selects under a table: the one its final comparator
name is bound to, and the given default when the chain names no comparator. -/
def chainComparator (comparators : List (GoString × Comparator)) (dflt : Comparator)
    (last : Option GoString) : Option Comparator :=
  match last with
  | none => some dflt
  | some c => comparators.lookup c

/-- The name a field name is emitted as, in the specification's words: the
first element of its mapping when the table has a non-empty entry for the name,
and the name unchanged otherwise. -/
def firstMapped (table : List (GoString × List GoString)) (name : GoString) : GoString :=
  match table.lookup name with
  | some (first :: _) => first
  | _ => name

/-- A name after the substitution of the specification: a non-empty name is
replaced by `firstMapped`, an empty (absent) name stays empty. -/
def substituteName (table : List (GoString × List GoString)) (name : GoString) : GoString :=
  if name = [] then [] else firstMapped table name

/-- An aggregation function after the substitution of the specification in its
`Field` and its `GroupedBy`. -/
def substituteNames (table : List (GoString × List GoString)) :
    AggregationFunc → AggregationFunc
  | .Count f g => .Count (substituteName table f) (substituteName table g)
  | .Average f g => .Average (substituteName table f) (substituteName table g)
  | .Sum f g => .Sum (substituteName table f) (substituteName table g)
  | .Min f g => .Min (substituteName table f) (substituteName table g)
  | .Max f g => .Max (substituteName table f) (substituteName table g)
  | .other => .other

/-- A field-mapping table of field names: the empty name has no backend name
and no name is given an empty backend name. -/
def NamesNonEmpty (table : List (GoString × List GoString)) : Prop :=
  firstMapped table [] = [] ∧ ∀ name, name ≠ [] → firstMapped table name ≠ []

/-- One of the five aggregation functions of the specification. -/
def AggregationFunc.supported : AggregationFunc → Bool
  | .other => false
  | _ => true

/-- An aggregation expression of the specification's data model: `Near`, or a
`Comparison` whose function is one of `Count`, `Average`, `Sum`, `Min`, `Max`. -/
def AggregationExpr.inDataModel : AggregationExpr → Bool
  | .Near => true
  | .Comparison f _ _ => f.supported
  | .other => false

/-- The number a string of decimal digits denotes. -/
def decimalValue (digits : GoString) : Nat :=
  digits.foldl (fun acc d => acc * 10 + (d - 0x30)) 0

/-- The fragment of `Average`, `Sum`, `Min` and `Max` in the specification's
words, for the backend function name `fn`, the alias `a`, the emitted field `F`
and the emitted grouping `G` (`none` when `GroupedBy` is empty). -/
def statsFragment (fn a F : GoString) (G : Option GoString) : GoString :=
  match G with
  | none =>
    lit "| stats " ++ fn ++ lit "(" ++ F ++ lit ") by " ++ F ++ lit " AS " ++ a ++
      lit " | sort -" ++ a
  | some G =>
    lit "| stats " ++ fn ++ lit "(" ++ F ++ lit ") by " ++ F ++ lit "," ++ G ++ lit " AS " ++ a ++
      lit " | sort -" ++ a

/-- The UTF-16 code units of a character, in the specification's words: the
character itself up to U+FFFF and a surrogate pair above. -/
def utf16Units (r : Nat) : List Nat :=
  if r < 0x10000 then [r]
  else [0xD800 + (r - 0x10000) / 1024, 0xDC00 + (r - 0x10000) % 1024]

/-- The UTF-16LE encoding of a sequence of characters, in the specification's
words: two bytes for every code unit, the low byte first. -/
def utf16le (rs : List Nat) : GoString :=
  rs.flatMap (fun r => (utf16Units r).flatMap (fun u => [u % 256, u / 256]))

/-- The 16-bit units of a byte string read as little-endian pairs (Go
`binary.LittleEndian.Uint16` on every pair). -/
def getUint16s : GoString → List Nat
  | lo :: hi :: rest => (lo + hi * 256) :: getUint16s rest
  | _ => []

/-- Go `utf16.Decode`: the runes of a sequence of UTF-16 code units; a
surrogate that is not half of a valid pair gives U+FFFD. -/
def utf16Decode : List Nat → List Nat
  | [] => []
  | [u] => if u < 0xD800 ∨ 0xE000 ≤ u then [u] else [0xFFFD]
  | u :: v :: rest =>
    if u < 0xD800 ∨ 0xE000 ≤ u then u :: utf16Decode (v :: rest)
    else if u < 0xDC00 ∧ 0xDC00 ≤ v ∧ v < 0xE000 then
      ((u - 0xD800) * 1024 + (v - 0xDC00) + 0x10000) :: utf16Decode rest
    else 0xFFFD :: utf16Decode (v :: rest)

/-- A character of the standard base64 alphabet: `A-Z`, `a-z`, `0-9`, `+`,
`/`. -/
def IsBase64Char (c : Nat) : Prop :=
  (0x41 ≤ c ∧ c ≤ 0x5A) ∨ (0x61 ≤ c ∧ c ≤ 0x7A) ∨ (0x30 ≤ c ∧ c ≤ 0x39) ∨ c = 0x2B ∨ c = 0x2F

/-- The 6-bit value of a character of the standard base64 alphabet. -/
def base64Index (c : Nat) : Option Nat :=
  if 0x41 ≤ c ∧ c ≤ 0x5A then some (c - 0x41)
  else if 0x61 ≤ c ∧ c ≤ 0x7A then some (c - 0x61 + 26)
  else if 0x30 ≤ c ∧ c ≤ 0x39 then some (c - 0x30 + 52)
  else if c = 0x2B then some 62
  else if c = 0x2F then some 63
  else none

/-- Standard base64 decoding of a padded text: every group of four characters
gives three bytes, a final group ending in `=` or `==` gives two bytes or one;
anything else is rejected. -/
def base64Decode : GoString → Option GoString
  | [] => some []
  | a :: b :: c :: d :: rest =>
    match base64Index a, base64Index b with
    | some ia, some ib =>
      if c = 0x3D ∧ d = 0x3D ∧ rest = [] then some [ia * 4 + ib / 16]
      else
        match base64Index c with
        | none => none
        | some ic =>
          if d = 0x3D ∧ rest = [] then some [ia * 4 + ib / 16, ib % 16 * 16 + ic / 4]
          else
            match base64Index d, base64Decode rest with
            | some id, some tail =>
              some ((ia * 4 + ib / 16) :: (ib % 16 * 16 + ic / 4) :: (ic % 4 * 64 + id) :: tail)
            | _, _ => none
    | _, _ => none
  | _ => none

/-- Every maximal run of consecutive backslashes of `s` has even length: when
`s` is `pre`, then `k` backslashes, then `post`, and neither `pre` ends in a
backslash nor `post` starts with one, `k` is even. -/
def EvenBackslashRuns (s : GoString) : Prop :=
  ∀ pre k post, s = pre ++ List.replicate k 0x5C ++ post →
    pre.getLast? ≠ some 0x5C → post.head? ≠ some 0x5C → Even k

/-- The text `s` ends in an even number of backslashes: when `s` is `pre`
followed by `k` backslashes and `pre` does not end in a backslash, `k` is
even. -/
def EndsInEvenBackslashes (s : GoString) : Prop :=
  ∀ pre k, s = pre ++ List.replicate k 0x5C → pre.getLast? ≠ some 0x5C → Even k

/-- A scan of `s` from the left that keeps the parity of the run of backslashes
it is in (`odd`) and accepts when every run that ends has even length. -/
def evenRunsFrom (odd : Bool) : GoString → Bool
  | [] => !odd
  | b :: t => if b = 0x5C then evenRunsFrom (!odd) t else !odd && evenRunsFrom false t

/-- Go `utf8.ValidRune`: a Unicode scalar value. -/
def ValidRune (r : Nat) : Prop := r < 0xD800 ∨ (0xE000 ≤ r ∧ r ≤ 0x10FFFF)

instance (r : Nat) : Decidable (ValidRune r) := by unfold ValidRune; infer_instance

/-- One decoding step either reads the encoding of a valid rune from the front
of the string or reads one byte that starts no valid encoding. -/
def DecodeSpec (s : GoString) : Prop :=
  (∃ r t, ValidRune r ∧ s = encodeRune r ++ t ∧ decodeRune s = (r, (encodeRune r).length)) ∨
  (∃ s0 t, s = s0 :: t ∧ 0x80 ≤ s0 ∧ decodeRune s = (RuneError, 1))

/-- The UTF-8 encoding of a sequence of runes (Go `string(runes)`). -/
def encodeRunes (rs : List Nat) : GoString := rs.flatMap encodeRune

/-- Every backslash rune doubled, every other rune kept. -/
def escapeRunes (rs : List Nat) : List Nat :=
  rs.flatMap (fun r => if r = 0x5C then [0x5C, 0x5C] else [r])

/-- Every backslash byte replaced by two backslash bytes, every other byte
kept, in the same order. -/
def doubleBackslashes (s : GoString) : GoString :=
  s.flatMap (fun b => if b = 0x5C then [0x5C, 0x5C] else [b])

/-- Valid UTF-8: the string is the encoding of a sequence of Unicode scalar
values. -/
def IsUTF8 (s : GoString) : Prop := ∃ rs, (∀ r ∈ rs, ValidRune r) ∧ s = encodeRunes rs

/-- A comparator table whose keys are exactly the comparator names. -/
def IsComparatorTable (comparators : List (GoString × Comparator)) : Prop :=
  ∀ m, comparators.lookup m = none ↔ m ∉ comparatorNames

/-! ## Lemmas on the tables -/

theorem lookup_Comparators_none (m : GoString) :
    Comparators.lookup m = none ↔ m ∉ comparatorNames := by
  simp [Comparators, comparatorNames]

theorem lookup_ComparatorsCaseSensitive_none (m : GoString) :
    ComparatorsCaseSensitive.lookup m = none ↔ m ∉ comparatorNames := by
  simp [ComparatorsCaseSensitive, comparatorNames]

theorem lookup_ValueModifiers_none (m : GoString) :
    ValueModifiers.lookup m = none ↔ m ∉ valueModifierNames := by
  simp [ValueModifiers, valueModifierNames]

theorem names_disjoint (m : GoString) (hv : m ∈ valueModifierNames) :
    m ∉ comparatorNames := by
  have h : ∀ x ∈ valueModifierNames, x ∉ comparatorNames := by decide
  exact h m hv

theorem isComparatorTable_Comparators : IsComparatorTable Comparators :=
  lookup_Comparators_none

theorem isComparatorTable_ComparatorsCaseSensitive :
    IsComparatorTable ComparatorsCaseSensitive :=
  lookup_ComparatorsCaseSensitive_none

/-! ## Lemmas on the loop of `getComparator` -/

theorem loop_cons_unknown (comparators : List (GoString × Comparator))
    (ht : IsComparatorTable comparators) (len i : Nat) (m : GoString) (rest : List GoString)
    (vms : List ValueModifier) (c : Option Comparator)
    (hc : m ∉ comparatorNames) (hv : m ∉ valueModifierNames) :
    getComparatorLoop comparators len i (m :: rest) vms c = .error (unknownModifierError m) := by
  have h1 := (ht m).2 hc
  have h2 := (lookup_ValueModifiers_none m).2 hv
  simp [getComparatorLoop, h1, h2]

theorem loop_cons_order (comparators : List (GoString × Comparator))
    (ht : IsComparatorTable comparators) (len i : Nat) (m : GoString) (rest : List GoString)
    (vms : List ValueModifier) (c : Option Comparator)
    (hc : m ∈ comparatorNames) (hi : i < len - 1) :
    getComparatorLoop comparators len i (m :: rest) vms c = .error (invalidOrderError m) := by
  have h1 : comparators.lookup m ≠ none := fun h => (ht m).1 h hc
  simp [getComparatorLoop, h1, hi]

theorem loop_cons_value (comparators : List (GoString × Comparator))
    (ht : IsComparatorTable comparators) (len i : Nat) (m : GoString) (rest : List GoString)
    (vms : List ValueModifier) (c : Option Comparator) (vm : ValueModifier)
    (hv : ValueModifiers.lookup m = some vm) :
    getComparatorLoop comparators len i (m :: rest) vms c =
      getComparatorLoop comparators len (i + 1) rest (vms ++ [vm]) c := by
  have hvn : m ∈ valueModifierNames := by
    by_contra h
    rw [(lookup_ValueModifiers_none m).2 h] at hv
    exact Option.noConfusion hv
  have h1 := (ht m).2 (names_disjoint m hvn)
  simp [getComparatorLoop, h1, hv]

theorem loop_cons_comparator (comparators : List (GoString × Comparator))
    (ht : IsComparatorTable comparators) (len i : Nat) (m : GoString) (rest : List GoString)
    (vms : List ValueModifier) (c : Option Comparator) (cm : Comparator)
    (hc : comparators.lookup m = some cm) (hi : ¬ i < len - 1) :
    getComparatorLoop comparators len i (m :: rest) vms c =
      getComparatorLoop comparators len (i + 1) rest vms (some cm) := by
  have hcn : m ∈ comparatorNames := by
    by_contra h
    rw [(ht m).2 h] at hc
    exact Option.noConfusion hc
  have hvn : m ∉ valueModifierNames := fun h => names_disjoint m h hcn
  have h2 := (lookup_ValueModifiers_none m).2 hvn
  simp [getComparatorLoop, hc, h2, hi]

theorem lookup_of_mem_valueModifierNames (m : GoString) (h : m ∈ valueModifierNames) :
    ∃ vm, ValueModifiers.lookup m = some vm := by
  cases hl : ValueModifiers.lookup m with
  | none => exact absurd h ((lookup_ValueModifiers_none m).1 hl)
  | some vm => exact ⟨vm, rfl⟩

theorem lookup_of_mem_comparatorNames (comparators : List (GoString × Comparator))
    (ht : IsComparatorTable comparators) (m : GoString) (h : m ∈ comparatorNames) :
    ∃ cm, comparators.lookup m = some cm := by
  cases hl : comparators.lookup m with
  | none => exact absurd h ((ht m).1 hl)
  | some cm => exact ⟨cm, rfl⟩

/-- A prefix of value-modifier names is collected in order and the loop goes on
behind it. -/
theorem loop_values (comparators : List (GoString × Comparator))
    (ht : IsComparatorTable comparators) (len : Nat) (names : List GoString)
    (vms : List ValueModifier)
    (h : List.Forall₂ (fun n vm => ValueModifiers.lookup n = some vm) names vms) :
    ∀ (i : Nat) (rest : List GoString) (acc : List ValueModifier) (c : Option Comparator),
      getComparatorLoop comparators len i (names ++ rest) acc c =
        getComparatorLoop comparators len (i + names.length) rest (acc ++ vms) c := by
  induction h with
  | nil => intro i rest acc c; simp
  | cons hhd _ ih =>
    intro i rest acc c
    rw [List.cons_append, loop_cons_value comparators ht len i _ _ acc c _ hhd, ih]
    simp [Nat.add_assoc, Nat.add_comm 1]

theorem forall₂_of_valueModifierNames (names : List GoString)
    (h : ∀ m ∈ names, m ∈ valueModifierNames) :
    ∃ vms, List.Forall₂ (fun n vm => ValueModifiers.lookup n = some vm) names vms := by
  induction names with
  | nil => exact ⟨[], List.Forall₂.nil⟩
  | cons m rest ih =>
    obtain ⟨vm, hvm⟩ := lookup_of_mem_valueModifierNames m (h m (List.mem_cons_self _ _))
    obtain ⟨vms, hvms⟩ := ih (fun x hx => h x (List.mem_cons_of_mem _ hx))
    exact ⟨vm :: vms, List.Forall₂.cons hvm hvms⟩

/-- The loop succeeds on every valid chain. -/
theorem loop_ok_of_valid (comparators : List (GoString × Comparator))
    (ht : IsComparatorTable comparators) (modifiers : List GoString)
    (h : ValidChain modifiers) :
    ∃ r, getComparatorLoop comparators modifiers.length 0 modifiers [] none = .ok r := by
  obtain ⟨vs, tail, rfl, hvs, htail⟩ := h
  obtain ⟨vms, hvms⟩ := forall₂_of_valueModifierNames vs hvs
  rw [loop_values comparators ht _ vs vms hvms]
  rcases htail with rfl | ⟨c, hc, rfl⟩
  · exact ⟨_, rfl⟩
  · obtain ⟨cm, hcm⟩ := lookup_of_mem_comparatorNames comparators ht c hc
    rw [loop_cons_comparator comparators ht _ _ c [] _ _ cm hcm (by simp)]
    exact ⟨_, rfl⟩

/-- The loop succeeds only on valid chains. -/
theorem valid_of_loop_ok (comparators : List (GoString × Comparator))
    (ht : IsComparatorTable comparators) (len : Nat) :
    ∀ (modifiers : List GoString) (i : Nat) (acc : List ValueModifier) (c : Option Comparator),
      len = i + modifiers.length →
      (∃ r, getComparatorLoop comparators len i modifiers acc c = .ok r) →
      ValidChain modifiers := by
  intro modifiers
  induction modifiers with
  | nil => intro _ _ _ _ _; exact ⟨[], [], rfl, by simp, Or.inl rfl⟩
  | cons m rest ih =>
    intro i acc c hlen ⟨r, hr⟩
    by_cases hv : m ∈ valueModifierNames
    · obtain ⟨vm, hvm⟩ := lookup_of_mem_valueModifierNames m hv
      rw [loop_cons_value comparators ht len i m rest acc c vm hvm] at hr
      obtain ⟨vs, tail, hrest, hvs, htail⟩ :=
        ih (i + 1) _ c (by simp at hlen; omega) ⟨r, hr⟩
      refine ⟨m :: vs, tail, by simp [hrest], ?_, htail⟩
      intro x hx
      rcases List.mem_cons.1 hx with rfl | hx
      · exact hv
      · exact hvs x hx
    · by_cases hc : m ∈ comparatorNames
      · by_cases hi : i < len - 1
        · rw [loop_cons_order comparators ht len i m rest acc c hc hi] at hr
          exact Except.noConfusion hr
        · have hrest : rest = [] := by
            cases rest with
            | nil => rfl
            | cons _ _ => simp at hlen; omega
          subst hrest
          exact ⟨[], [m], rfl, by simp, Or.inr ⟨m, hc, rfl⟩⟩
      · rw [loop_cons_unknown comparators ht len i m rest acc c hc hv] at hr
        exact Except.noConfusion hr

/-- `getComparator` returns a function exactly when its loop succeeds or the
chain is empty. -/
theorem getComparator_ok_iff (caseTable : Nat → Nat)
    (comparators : List (GoString × Comparator)) (ht : IsComparatorTable comparators)
    (caseSensitive : Bool) (modifiers : List GoString) :
    (∃ f, getComparator caseTable comparators caseSensitive modifiers = .ok f) ↔
      ValidChain modifiers := by
  constructor
  · rintro ⟨f, hf⟩
    unfold getComparator at hf
    by_cases h0 : modifiers.length = 0
    · have : modifiers = [] := List.length_eq_zero.1 h0
      subst this
      exact ⟨[], [], rfl, by simp, Or.inl rfl⟩
    · rw [if_neg h0] at hf
      cases hl : getComparatorLoop comparators modifiers.length 0 modifiers [] none with
      | error e => rw [hl] at hf; exact Except.noConfusion hf
      | ok r =>
        exact valid_of_loop_ok comparators ht modifiers.length modifiers 0 [] none (by simp)
          ⟨r, hl⟩
  · intro hvalid
    unfold getComparator
    by_cases h0 : modifiers.length = 0
    · rw [if_pos h0]
      cases caseSensitive <;> exact ⟨_, rfl⟩
    · rw [if_neg h0]
      obtain ⟨r, hr⟩ := loop_ok_of_valid comparators ht modifiers hvalid
      rw [hr]
      exact ⟨_, rfl⟩

theorem applyModifiers_eq_modifyInOrder (vms : List ValueModifier) (value : Value) :
    applyModifiers vms value = modifyInOrder vms value := by
  induction vms generalizing value with
  | nil => rfl
  | cons m rest ih =>
    unfold modifyInOrder at ih ⊢
    rw [List.foldlM_cons, applyModifiers]
    cases hm : m.Modify value with
    | error e => rfl
    | ok v => exact ih v

theorem modifyInOrder_ok (vms : List ValueModifier) (value : Value) :
    ∃ value', modifyInOrder vms value = .ok value' := by
  rw [← applyModifiers_eq_modifyInOrder]
  induction vms generalizing value with
  | nil => exact ⟨value, rfl⟩
  | cons m rest ih =>
    cases m
    · exact ih (Value.str (base64Encode (coerceString value)))
    · exact ih (Value.str (coerceString (Value.bytes
        (putUint16s (utf16Encode (runesOf (coerceString value)))))))

theorem Bridges_ok (caseTable : Nat → Nat) (c : Comparator) (field value : Value) :
    ∃ text, c.Bridges caseTable field value = .ok text := by
  cases c <;> simp only [Comparator.Bridges] <;> first
    | exact ⟨_, rfl⟩
    | (split <;> exact ⟨_, rfl⟩)

/-- What `getComparator` returns on value-modifier names followed by an
optional comparator name. -/
theorem getComparator_valid (caseTable : Nat → Nat)
    (comparators : List (GoString × Comparator)) (ht : IsComparatorTable comparators)
    (caseSensitive : Bool) (names : List GoString) (vms : List ValueModifier)
    (h : List.Forall₂ (fun n vm => ValueModifiers.lookup n = some vm) names vms)
    (last : Option GoString) (cmp : Comparator)
    (hc : chainComparator comparators
      (if caseSensitive then Comparator.baseComparatorCaseSensitive
        else Comparator.baseComparator) last = some cmp)
    (field value : Value) :
    ∃ f value' text,
      getComparator caseTable comparators caseSensitive (names ++ last.toList) = .ok f ∧
      modifyInOrder vms value = .ok value' ∧
      cmp.Bridges caseTable field value' = .ok text ∧
      f field value = .ok text := by
  obtain ⟨value', hv⟩ := modifyInOrder_ok vms value
  obtain ⟨text, ht'⟩ := Bridges_ok caseTable cmp field value'
  unfold getComparator
  by_cases h0 : (names ++ last.toList).length = 0
  · have hnil : names ++ last.toList = [] := List.length_eq_zero.1 h0
    obtain ⟨hn, hl⟩ := List.append_eq_nil.1 hnil
    subst hn
    cases h
    cases last with
    | some c => simp at hl
    | none =>
      simp only [chainComparator, Option.some.injEq] at hc
      simp only [modifyInOrder, List.foldlM_nil, pure, Except.pure, Except.ok.injEq] at hv
      subst hv
      cases caseSensitive
      · simp only [Bool.false_eq_true, if_false] at hc
        subst hc
        exact ⟨_, value, text, by simp, rfl, ht', ht'⟩
      · simp only [if_true] at hc
        subst hc
        exact ⟨_, value, text, by simp, rfl, ht', ht'⟩
  · rw [if_neg h0, loop_values comparators ht _ names vms h]
    cases last with
    | none =>
      simp only [chainComparator, Option.some.injEq] at hc
      refine ⟨_, value', text, rfl, hv, ht', ?_⟩
      simp only [List.nil_append, applyModifiers_eq_modifyInOrder, hv]
      cases caseSensitive
      · simp only [Bool.false_eq_true, if_false] at hc ⊢
        rw [hc]; exact ht'
      · simp only [if_true] at hc ⊢
        rw [hc]; exact ht'
    | some c =>
      simp only [chainComparator] at hc
      simp only [Option.toList]
      rw [loop_cons_comparator comparators ht _ _ c [] _ _ cmp hc (by simp)]
      refine ⟨_, value', text, rfl, hv, ht', ?_⟩
      simp only [List.nil_append, applyModifiers_eq_modifyInOrder, hv]
      exact ht'

/-- The first name of a chain that is not a value-modifier name decides the
error: an unknown name gives the unknown-modifier error. -/
theorem getComparator_first_unknown (caseTable : Nat → Nat)
    (comparators : List (GoString × Comparator)) (ht : IsComparatorTable comparators)
    (caseSensitive : Bool) (pre : List GoString) (u : GoString) (post : List GoString)
    (hpre : ∀ m ∈ pre, m ∈ valueModifierNames)
    (huc : u ∉ comparatorNames) (huv : u ∉ valueModifierNames) :
    getComparator caseTable comparators caseSensitive (pre ++ u :: post) =
      .error (unknownModifierError u) := by
  obtain ⟨vms, hvms⟩ := forall₂_of_valueModifierNames pre hpre
  unfold getComparator
  rw [if_neg (by simp), loop_values comparators ht _ pre vms hvms,
    loop_cons_unknown comparators ht _ _ u post _ _ huc huv]

/-- The first name of a chain that is not a value-modifier name decides the
error: a comparator name that is not the last name gives the invalid-order
error. -/
theorem getComparator_first_misplaced (caseTable : Nat → Nat)
    (comparators : List (GoString × Comparator)) (ht : IsComparatorTable comparators)
    (caseSensitive : Bool) (pre : List GoString) (c : GoString) (post : List GoString)
    (hpre : ∀ m ∈ pre, m ∈ valueModifierNames)
    (hc : c ∈ comparatorNames) (hpost : post ≠ []) :
    getComparator caseTable comparators caseSensitive (pre ++ c :: post) =
      .error (invalidOrderError c) := by
  obtain ⟨vms, hvms⟩ := forall₂_of_valueModifierNames pre hpre
  have hlen : 0 < post.length := List.length_pos.2 hpost
  unfold getComparator
  rw [if_neg (by simp), loop_values comparators ht _ pre vms hvms,
    loop_cons_order comparators ht _ _ c post _ _ hc (by simp; omega)]

/-! ## Lemmas on UTF-8 decoding and encoding -/

theorem decodeRune_cons (s0 : Nat) (t : GoString) :
    decodeRune (s0 :: t) =
    if firstSize s0 = 1 then (s0, 1)
    else if firstSize s0 = 0 then (RuneError, 1)
    else if t.length + 1 < firstSize s0 then (RuneError, 1)
    else
      if t.getD 0 0 < acceptLo s0 ∨ acceptHi s0 < t.getD 0 0 then (RuneError, 1)
      else if firstSize s0 ≤ 2 then (s0 % 32 * 64 + t.getD 0 0 % 64, 2)
      else
        if t.getD 1 0 < 0x80 ∨ 0xBF < t.getD 1 0 then (RuneError, 1)
        else if firstSize s0 ≤ 3 then (s0 % 16 * 4096 + t.getD 0 0 % 64 * 64 + t.getD 1 0 % 64, 3)
        else
          if t.getD 2 0 < 0x80 ∨ 0xBF < t.getD 2 0 then (RuneError, 1)
          else (s0 % 8 * 262144 + t.getD 0 0 % 64 * 4096 + t.getD 1 0 % 64 * 64 + t.getD 2 0 % 64, 4) := by
  rfl

theorem pair_eq {a b c d : Nat} (h1 : a = c) (h2 : b = d) : (a, b) = (c, d) := by
  rw [h1, h2]

set_option maxHeartbeats 2000000 in
theorem decodeRune_encodeRune (r : Nat) (hr : ValidRune r) (t : GoString) :
    decodeRune (encodeRune r ++ t) = (r, (encodeRune r).length) := by
  unfold ValidRune at hr
  unfold encodeRune
  split_ifs with h1 h2 h3 h4
  · rw [List.singleton_append, decodeRune_cons]
    have : firstSize r = 1 := by unfold firstSize; rw [if_pos h1]
    rw [if_pos this]; rfl
  · have hf : firstSize (0xC0 + r / 64) = 2 := by unfold firstSize; split_ifs <;> omega
    have hlo : acceptLo (0xC0 + r / 64) = 0x80 := by unfold acceptLo; split_ifs <;> omega
    have hhi : acceptHi (0xC0 + r / 64) = 0xBF := by unfold acceptHi; split_ifs <;> omega
    rw [List.cons_append, decodeRune_cons, hf, hlo, hhi]
    simp only [List.cons_append, List.nil_append, List.getD_cons_zero, List.length_cons,
      List.length_nil]
    split_ifs <;> first | omega | (exfalso; assumption) | exact pair_eq (by omega) (by omega)
  · omega
  · have hf : firstSize (0xE0 + r / 4096) = 3 := by unfold firstSize; split_ifs <;> omega
    have hlo : acceptLo (0xE0 + r / 4096) ≤ 0x80 + r / 64 % 64 := by
      unfold acceptLo; split_ifs <;> omega
    have hhi : 0x80 + r / 64 % 64 ≤ acceptHi (0xE0 + r / 4096) := by
      unfold acceptHi; split_ifs <;> omega
    rw [List.cons_append, decodeRune_cons, hf]
    simp only [List.cons_append, List.nil_append, List.getD_cons_zero, List.getD_cons_succ,
      List.length_cons, List.length_nil]
    split_ifs <;> first | omega | (exfalso; assumption) | exact pair_eq (by omega) (by omega)
  · have hf : firstSize (0xF0 + r / 262144) = 4 := by unfold firstSize; split_ifs <;> omega
    have hlo : acceptLo (0xF0 + r / 262144) ≤ 0x80 + r / 4096 % 64 := by
      unfold acceptLo; split_ifs <;> omega
    have hhi : 0x80 + r / 4096 % 64 ≤ acceptHi (0xF0 + r / 262144) := by
      unfold acceptHi; split_ifs <;> omega
    rw [List.cons_append, decodeRune_cons, hf]
    simp only [List.cons_append, List.nil_append, List.getD_cons_zero, List.getD_cons_succ,
      List.length_cons, List.length_nil]
    split_ifs <;> first | omega | (exfalso; assumption) | exact pair_eq (by omega) (by omega)


theorem firstSize_cases (s0 : Nat) :
    (firstSize s0 = 1 ∧ s0 < 0x80) ∨
    (firstSize s0 = 0 ∧ 0x80 ≤ s0) ∨
    (firstSize s0 = 2 ∧ 0xC2 ≤ s0 ∧ s0 < 0xE0) ∨
    (firstSize s0 = 3 ∧ 0xE0 ≤ s0 ∧ s0 < 0xF0) ∨
    (firstSize s0 = 4 ∧ 0xF0 ≤ s0 ∧ s0 < 0xF5) := by
  unfold firstSize
  split_ifs <;> omega

theorem encodeRune_one (r : Nat) (h : r < 0x80) : encodeRune r = [r] := by
  unfold encodeRune; rw [if_pos h]

theorem encodeRune_two (r : Nat) (h1 : 0x80 ≤ r) (h2 : r ≤ 0x7FF) :
    encodeRune r = [0xC0 + r / 64, 0x80 + r % 64] := by
  unfold encodeRune; rw [if_neg (by omega), if_pos h2]

theorem encodeRune_three (r : Nat) (h1 : 0x800 ≤ r) (h2 : r ≤ 0xFFFF)
    (h3 : r < 0xD800 ∨ 0xE000 ≤ r) :
    encodeRune r = [0xE0 + r / 4096, 0x80 + r / 64 % 64, 0x80 + r % 64] := by
  unfold encodeRune
  rw [if_neg (by omega), if_neg (by omega), if_neg (by omega), if_pos h2]

theorem encodeRune_four (r : Nat) (h1 : 0x10000 ≤ r) (h2 : r ≤ 0x10FFFF) :
    encodeRune r =
      [0xF0 + r / 262144, 0x80 + r / 4096 % 64, 0x80 + r / 64 % 64, 0x80 + r % 64] := by
  unfold encodeRune
  rw [if_neg (by omega), if_neg (by omega), if_neg (by omega), if_neg (by omega)]

theorem list_eq2 {a b c d : Nat} {t : List Nat} (h1 : a = c) (h2 : b = d) :
    a :: b :: t = [c, d] ++ t := by rw [h1, h2]; rfl

theorem list_eq3 {a b c d e f : Nat} {t : List Nat} (h1 : a = d) (h2 : b = e) (h3 : c = f) :
    a :: b :: c :: t = [d, e, f] ++ t := by rw [h1, h2, h3]; rfl

theorem list_eq4 {a b c d e f g h : Nat} {t : List Nat} (h1 : a = e) (h2 : b = f) (h3 : c = g)
    (h4 : d = h) : a :: b :: c :: d :: t = [e, f, g, h] ++ t := by rw [h1, h2, h3, h4]; rfl

theorem decodeRune_size2 (s0 s1 : Nat) (t : GoString) (hf : firstSize s0 = 2) :
    decodeRune (s0 :: s1 :: t) =
      if s1 < acceptLo s0 ∨ acceptHi s0 < s1 then (RuneError, 1)
      else (s0 % 32 * 64 + s1 % 64, 2) := by
  rw [decodeRune_cons, hf]; rfl

theorem decodeRune_size3 (s0 s1 s2 : Nat) (t : GoString) (hf : firstSize s0 = 3) :
    decodeRune (s0 :: s1 :: s2 :: t) =
      if s1 < acceptLo s0 ∨ acceptHi s0 < s1 then (RuneError, 1)
      else if s2 < 0x80 ∨ 0xBF < s2 then (RuneError, 1)
      else (s0 % 16 * 4096 + s1 % 64 * 64 + s2 % 64, 3) := by
  rw [decodeRune_cons, hf]; rfl

theorem decodeRune_size4 (s0 s1 s2 s3 : Nat) (t : GoString) (hf : firstSize s0 = 4) :
    decodeRune (s0 :: s1 :: s2 :: s3 :: t) =
      if s1 < acceptLo s0 ∨ acceptHi s0 < s1 then (RuneError, 1)
      else if s2 < 0x80 ∨ 0xBF < s2 then (RuneError, 1)
      else if s3 < 0x80 ∨ 0xBF < s3 then (RuneError, 1)
      else (s0 % 8 * 262144 + s1 % 64 * 4096 + s2 % 64 * 64 + s3 % 64, 4) := by
  rw [decodeRune_cons, hf]; rfl

theorem decodeRune_short (s0 : Nat) (t : GoString) (hf : 2 ≤ firstSize s0)
    (hlen : t.length + 1 < firstSize s0) : decodeRune (s0 :: t) = (RuneError, 1) := by
  rw [decodeRune_cons, if_neg (by omega), if_neg (by omega), if_pos hlen]

set_option maxHeartbeats 4000000 in
theorem decodeRune_spec (s0 : Nat) (t : GoString) : DecodeSpec (s0 :: t) := by
  unfold DecodeSpec
  rcases firstSize_cases s0 with ⟨hf, h0⟩ | ⟨hf, h0⟩ | ⟨hf, h0, h0'⟩ | ⟨hf, h0, h0'⟩ | ⟨hf, h0, h0'⟩
  · left
    refine ⟨s0, t, Or.inl (by omega), by rw [encodeRune_one s0 h0]; rfl, ?_⟩
    rw [decodeRune_cons, if_pos hf, encodeRune_one s0 h0]; rfl
  · right
    refine ⟨s0, t, rfl, h0, ?_⟩
    rw [decodeRune_cons, if_neg (by omega), if_pos hf]
  · have hlo : acceptLo s0 = 0x80 := by unfold acceptLo; split_ifs <;> omega
    have hhi : acceptHi s0 = 0xBF := by unfold acceptHi; split_ifs <;> omega
    rcases t with _ | ⟨s1, t⟩
    · right; exact ⟨s0, [], rfl, by omega, decodeRune_short s0 [] (by omega) (by simp [hf])⟩
    · rw [decodeRune_size2 s0 s1 t hf, hlo, hhi]
      split_ifs with c1
      · right; exact ⟨s0, s1 :: t, rfl, by omega, rfl⟩
      · left
        have e := encodeRune_two (s0 % 32 * 64 + s1 % 64) (by omega) (by omega)
        refine ⟨s0 % 32 * 64 + s1 % 64, t, Or.inl (by omega), ?_, ?_⟩
        · rw [e]; exact list_eq2 (by omega) (by omega)
        · rw [e]; rfl
  · have hlo : acceptLo s0 = if s0 = 0xE0 then 0xA0 else 0x80 := by
      unfold acceptLo; split_ifs <;> omega
    have hhi : acceptHi s0 = if s0 = 0xED then 0x9F else 0xBF := by
      unfold acceptHi; split_ifs <;> omega
    rcases t with _ | ⟨s1, _ | ⟨s2, t⟩⟩
    · right; exact ⟨s0, [], rfl, by omega, decodeRune_short s0 [] (by omega) (by simp [hf])⟩
    · right; exact ⟨s0, [s1], rfl, by omega, decodeRune_short s0 [s1] (by omega) (by simp [hf])⟩
    · rw [decodeRune_size3 s0 s1 s2 t hf, hlo, hhi]
      split_ifs
      all_goals first
        | (right; exact ⟨s0, s1 :: s2 :: t, rfl, by omega, rfl⟩)
        | (left
           have e := encodeRune_three (s0 % 16 * 4096 + s1 % 64 * 64 + s2 % 64)
             (by omega) (by omega) (by omega)
           refine ⟨s0 % 16 * 4096 + s1 % 64 * 64 + s2 % 64, t, by unfold ValidRune; omega, ?_, ?_⟩
           · rw [e]; exact list_eq3 (by omega) (by omega) (by omega)
           · rw [e]; rfl)
  · have hlo : acceptLo s0 = if s0 = 0xF0 then 0x90 else 0x80 := by
      unfold acceptLo; split_ifs <;> omega
    have hhi : acceptHi s0 = if s0 = 0xF4 then 0x8F else 0xBF := by
      unfold acceptHi; split_ifs <;> omega
    rcases t with _ | ⟨s1, _ | ⟨s2, _ | ⟨s3, t⟩⟩⟩
    · right; exact ⟨s0, [], rfl, by omega, decodeRune_short s0 [] (by omega) (by simp [hf])⟩
    · right; exact ⟨s0, [s1], rfl, by omega, decodeRune_short s0 [s1] (by omega) (by simp [hf])⟩
    · right; exact ⟨s0, [s1, s2], rfl, by omega,
        decodeRune_short s0 [s1, s2] (by omega) (by simp [hf])⟩
    · rw [decodeRune_size4 s0 s1 s2 s3 t hf, hlo, hhi]
      split_ifs
      all_goals first
        | (right; exact ⟨s0, s1 :: s2 :: s3 :: t, rfl, by omega, rfl⟩)
        | (left
           have e := encodeRune_four (s0 % 8 * 262144 + s1 % 64 * 4096 + s2 % 64 * 64 + s3 % 64)
             (by omega) (by omega)
           refine ⟨s0 % 8 * 262144 + s1 % 64 * 4096 + s2 % 64 * 64 + s3 % 64, t,
             by unfold ValidRune; omega, ?_, ?_⟩
           · rw [e]; exact list_eq4 (by omega) (by omega) (by omega) (by omega)
           · rw [e]; rfl)


theorem encodeRune_length_pos (r : Nat) : 1 ≤ (encodeRune r).length := by
  unfold encodeRune
  split_ifs <;> simp

theorem decodeRune_width_pos (s0 : Nat) (t : GoString) : 1 ≤ (decodeRune (s0 :: t)).2 := by
  rcases decodeRune_spec s0 t with ⟨r, t', _, _, hd⟩ | ⟨_, _, _, _, hd⟩
  · rw [hd]; exact encodeRune_length_pos r
  · rw [hd]

theorem rangeRunes_nil (n : Nat) : rangeRunes n [] = [] := by
  cases n <;> rfl

theorem rangeRunes_fuel : ∀ (n m : Nat) (s : GoString), s.length ≤ n → s.length ≤ m →
    rangeRunes n s = rangeRunes m s := by
  intro n
  induction n with
  | zero =>
    intro m s hn _
    have : s = [] := List.length_eq_zero.1 (Nat.le_zero.1 hn)
    subst this
    rw [rangeRunes_nil, rangeRunes_nil]
  | succ n ih =>
    intro m s hn hm
    cases s with
    | nil => rw [rangeRunes_nil, rangeRunes_nil]
    | cons s0 t =>
      cases m with
      | zero => simp at hm
      | succ m =>
        have hw := decodeRune_width_pos s0 t
        simp only [rangeRunes]
        congr 1
        apply ih
        · simp only [List.length_drop, List.length_cons] at hn ⊢; omega
        · simp only [List.length_drop, List.length_cons] at hm ⊢; omega

theorem runesOf_nil : runesOf [] = [] := rfl

theorem runesOf_cons (s0 : Nat) (t : GoString) :
    runesOf (s0 :: t) =
      (decodeRune (s0 :: t)).1 :: runesOf ((s0 :: t).drop (decodeRune (s0 :: t)).2) := by
  have hw := decodeRune_width_pos s0 t
  unfold runesOf
  simp only [List.length_cons, rangeRunes]
  congr 1
  apply rangeRunes_fuel
  · simp only [List.length_drop, List.length_cons]; omega
  · exact Nat.le_refl _

theorem encodeRune_ne_nil (r : Nat) : encodeRune r ≠ [] := by
  intro h
  have := encodeRune_length_pos r
  rw [h] at this
  simp at this

theorem runesOf_encodeRune_append (r : Nat) (hr : ValidRune r) (t : GoString) :
    runesOf (encodeRune r ++ t) = r :: runesOf t := by
  have hd := decodeRune_encodeRune r hr t
  cases he : encodeRune r with
  | nil => exact absurd he (encodeRune_ne_nil r)
  | cons b bs =>
    rw [he] at hd
    rw [List.cons_append, runesOf_cons, ← List.cons_append, hd]
    simp

theorem runesOf_invalid (s0 : Nat) (t : GoString)
    (hd : decodeRune (s0 :: t) = (RuneError, 1)) :
    runesOf (s0 :: t) = RuneError :: runesOf t := by
  rw [runesOf_cons, hd]
  simp

/-- Induction over a string along the decoding steps of a `range` loop. -/
theorem decode_induction {P : GoString → Prop} (hnil : P [])
    (hvalid : ∀ r t, ValidRune r → P t → P (encodeRune r ++ t))
    (hinvalid : ∀ s0 t, 0x80 ≤ s0 → decodeRune (s0 :: t) = (RuneError, 1) → P t → P (s0 :: t)) :
    ∀ s, P s := by
  suffices H : ∀ (n : Nat) (s : GoString), s.length = n → P s from fun s => H s.length s rfl
  intro n
  induction n using Nat.strong_induction_on with
  | _ n ih =>
    intro s h
    cases s with
    | nil => exact hnil
    | cons s0 t =>
      rcases decodeRune_spec s0 t with ⟨r, t', hr, hs, _⟩ | ⟨s0', t', hs, h0, hd⟩
      · rw [hs]
        apply hvalid r t' hr
        apply ih t'.length _ t' rfl
        have := encodeRune_length_pos r
        rw [← h, hs, List.length_append]
        omega
      · obtain ⟨rfl, rfl⟩ := List.cons.inj hs
        apply hinvalid s0 t h0 hd
        apply ih t.length _ t rfl
        rw [← h, List.length_cons]
        omega


theorem encodeRunes_nil : encodeRunes [] = [] := rfl

theorem encodeRunes_cons (r : Nat) (rs : List Nat) :
    encodeRunes (r :: rs) = encodeRune r ++ encodeRunes rs := rfl

theorem encodeRunes_append (as bs : List Nat) :
    encodeRunes (as ++ bs) = encodeRunes as ++ encodeRunes bs := by
  simp [encodeRunes, List.flatMap_append]

theorem escapeRunes_cons (r : Nat) (rs : List Nat) :
    escapeRunes (r :: rs) = (if r = 0x5C then [0x5C, 0x5C] else [r]) ++ escapeRunes rs := rfl

theorem EscapeBackslashes_foldl (rs : List Nat) (acc : GoString) :
    rs.foldl
      (fun builder char =>
        let builder := if char = 0x5C then builder ++ encodeRune 0x5C else builder
        builder ++ encodeRune char) acc =
      acc ++ encodeRunes (escapeRunes rs) := by
  induction rs generalizing acc with
  | nil => simp [escapeRunes, encodeRunes]
  | cons r rs ih =>
    rw [List.foldl_cons, ih, escapeRunes_cons, encodeRunes_append]
    by_cases h : r = 0x5C
    · subst h
      simp [encodeRunes]
    · simp [encodeRunes, h]

/-- The loop of `EscapeBackslashes` written as one pass over the runes. -/
theorem EscapeBackslashes_eq (s : GoString) :
    EscapeBackslashes s = encodeRunes (escapeRunes (runesOf s)) := by
  unfold EscapeBackslashes
  rw [EscapeBackslashes_foldl]
  rfl

theorem runesOf_encodeRunes_append (rs : List Nat) (hrs : ∀ r ∈ rs, ValidRune r)
    (t : GoString) : runesOf (encodeRunes rs ++ t) = rs ++ runesOf t := by
  induction rs with
  | nil => rfl
  | cons r rs ih =>
    rw [encodeRunes_cons, List.append_assoc,
      runesOf_encodeRune_append r (hrs r (List.mem_cons_self _ _)),
      ih (fun x hx => hrs x (List.mem_cons_of_mem _ hx))]
    rfl

theorem runesOf_encodeRunes (rs : List Nat) (hrs : ∀ r ∈ rs, ValidRune r) :
    runesOf (encodeRunes rs) = rs := by
  have := runesOf_encodeRunes_append rs hrs []
  simpa [runesOf_nil] using this

theorem validRune_RuneError : ValidRune RuneError := by decide

theorem validRune_runesOf (s : GoString) : ∀ r ∈ runesOf s, ValidRune r := by
  refine decode_induction (P := fun s => ∀ r ∈ runesOf s, ValidRune r) ?_ ?_ ?_ s
  · intro r hr; simp [runesOf_nil] at hr
  · intro r t hr ih x hx
    rw [runesOf_encodeRune_append r hr] at hx
    rcases List.mem_cons.1 hx with rfl | hx
    · exact hr
    · exact ih x hx
  · intro s0 t _ hd ih x hx
    rw [runesOf_invalid s0 t hd] at hx
    rcases List.mem_cons.1 hx with rfl | hx
    · exact validRune_RuneError
    · exact ih x hx

theorem validRune_escapeRunes (rs : List Nat) (hrs : ∀ r ∈ rs, ValidRune r) :
    ∀ r ∈ escapeRunes rs, ValidRune r := by
  intro r hr
  simp only [escapeRunes, List.mem_flatMap] at hr
  obtain ⟨a, ha, hra⟩ := hr
  by_cases h : a = 0x5C
  · rw [if_pos h] at hra
    have : r = 0x5C := by simpa using hra
    rw [this]; decide
  · rw [if_neg h] at hra
    have : r = a := by simpa using hra
    rw [this]; exact hrs a ha

theorem not_mem_encodeRune (r : Nat) (h : r ≠ 0x5C) : 0x5C ∉ encodeRune r := by
  unfold encodeRune
  split_ifs <;> simp only [List.mem_cons, List.mem_singleton, List.not_mem_nil, or_false,
    not_or] <;> omega

theorem count_encodeRune (r : Nat) :
    (encodeRune r).count 0x5C = if r = 0x5C then 1 else 0 := by
  by_cases h : r = 0x5C
  · subst h; decide
  · rw [if_neg h]
    exact List.count_eq_zero.2 (not_mem_encodeRune r h)

/-- Decoding neither creates nor drops a backslash. -/
theorem count_runesOf (s : GoString) : (runesOf s).count 0x5C = s.count 0x5C := by
  refine decode_induction (P := fun s => (runesOf s).count 0x5C = s.count 0x5C) ?_ ?_ ?_ s
  · rfl
  · intro r t hr ih
    rw [runesOf_encodeRune_append r hr, List.count_append, count_encodeRune, List.count_cons, ih]
    by_cases h : r = 0x5C
    · simp [h]; omega
    · simp [h]
  · intro s0 t h0 hd ih
    rw [runesOf_invalid s0 t hd, List.count_cons, List.count_cons, ih]
    have h1 : ¬ (RuneError = 0x5C) := by decide
    have h2 : ¬ (s0 = 0x5C) := by omega
    simp [h1, h2]

theorem count_escapeRunes (rs : List Nat) :
    (escapeRunes rs).count 0x5C = 2 * rs.count 0x5C := by
  induction rs with
  | nil => rfl
  | cons r rs ih =>
    rw [escapeRunes_cons, List.count_append, ih, List.count_cons]
    by_cases h : r = 0x5C
    · simp [h]; omega
    · have h0 : List.count 0x5C [r] = 0 :=
        List.count_eq_zero.2 (by simp only [List.mem_singleton]; omega)
      simp [h, h0]

theorem escapeRunes_of_not_mem (rs : List Nat) (h : 0x5C ∉ rs) : escapeRunes rs = rs := by
  induction rs with
  | nil => rfl
  | cons r rs ih =>
    have h1 : r ≠ 0x5C := fun e => h (by simp [e])
    have h2 : 0x5C ∉ rs := fun e => h (List.mem_cons_of_mem _ e)
    rw [escapeRunes_cons, if_neg h1, ih h2]
    rfl

/-- The runes of the escaped string are the runes of the input with every
backslash doubled. -/
theorem runesOf_EscapeBackslashes (s : GoString) :
    runesOf (EscapeBackslashes s) = escapeRunes (runesOf s) := by
  rw [EscapeBackslashes_eq]
  exact runesOf_encodeRunes _ (validRune_escapeRunes _ (validRune_runesOf s))

/-- Escaping doubles the number of backslash bytes of every string. -/
theorem count_EscapeBackslashes (s : GoString) :
    (EscapeBackslashes s).count 0x5C = 2 * s.count 0x5C := by
  rw [← count_runesOf (EscapeBackslashes s), runesOf_EscapeBackslashes, count_escapeRunes,
    count_runesOf]

theorem doubleBackslashes_append (a b : GoString) :
    doubleBackslashes (a ++ b) = doubleBackslashes a ++ doubleBackslashes b := by
  simp [doubleBackslashes, List.flatMap_append]

theorem doubleBackslashes_of_not_mem (s : GoString) (h : 0x5C ∉ s) :
    doubleBackslashes s = s := by
  induction s with
  | nil => rfl
  | cons b s ih =>
    have h1 : b ≠ 0x5C := fun e => h (by simp [e])
    have h2 : 0x5C ∉ s := fun e => h (List.mem_cons_of_mem _ e)
    have : doubleBackslashes (b :: s) = (if b = 0x5C then [0x5C, 0x5C] else [b]) ++
        doubleBackslashes s := rfl
    rw [this, if_neg h1, ih h2]
    rfl

theorem length_doubleBackslashes (s : GoString) :
    (doubleBackslashes s).length = s.length + s.count 0x5C := by
  induction s with
  | nil => rfl
  | cons b s ih =>
    have : doubleBackslashes (b :: s) = (if b = 0x5C then [0x5C, 0x5C] else [b]) ++
        doubleBackslashes s := rfl
    rw [this, List.length_append, ih, List.count_cons]
    by_cases h : b = 0x5C
    · simp [h]; omega
    · simp [h]; omega

theorem doubleBackslashes_encodeRunes (rs : List Nat) :
    doubleBackslashes (encodeRunes rs) = encodeRunes (escapeRunes rs) := by
  induction rs with
  | nil => rfl
  | cons r rs ih =>
    rw [encodeRunes_cons, doubleBackslashes_append, ih, escapeRunes_cons, encodeRunes_append]
    congr 1
    by_cases h : r = 0x5C
    · subst h; decide
    · rw [if_neg h, doubleBackslashes_of_not_mem _ (not_mem_encodeRune r h)]
      simp [encodeRunes]

/-- On valid UTF-8 the function does what its comment says: every backslash is
doubled and every other byte is kept. -/
theorem EscapeBackslashes_of_isUTF8 (s : GoString) (h : IsUTF8 s) :
    EscapeBackslashes s = doubleBackslashes s := by
  obtain ⟨rs, hrs, rfl⟩ := h
  rw [EscapeBackslashes_eq, runesOf_encodeRunes rs hrs, doubleBackslashes_encodeRunes]

/-! ## The modifier chain resolver -/

/-- C1: in both modes, `getComparator` returns a function rather than an error
if and only if the list of modifier names consists of zero or more
value-modifier names followed by at most one comparator name, which is then the
last element. -/
theorem getComparator_ok_iff_validChain (caseTable : Nat → Nat) (modifiers : List GoString) :
    ((∃ f, GetComparator caseTable modifiers = .ok f) ↔ ValidChain modifiers) ∧
    ((∃ f, GetComparatorCaseSensitive caseTable modifiers = .ok f) ↔ ValidChain modifiers) :=
  ⟨getComparator_ok_iff caseTable Comparators isComparatorTable_Comparators false modifiers,
   getComparator_ok_iff caseTable ComparatorsCaseSensitive
     isComparatorTable_ComparatorsCaseSensitive true modifiers⟩

/-- C2: for value-modifier names `names` bound to the modifiers `vms`, followed
by an optional comparator name `last`, and for every field and value, the
function `getComparator` returns gives, without error, exactly the text that
the selected comparator produces for the field and the value obtained by
applying `vms` from left to right; the selected comparator is the one `last` is
bound to in the mode's table, and `baseComparator` (insensitive mode) or
`baseComparatorCaseSensitive` (sensitive mode) when there is no comparator
name, the empty chain included. -/
theorem getComparator_applies_chain (caseTable : Nat → Nat) (names : List GoString)
    (vms : List ValueModifier)
    (h : List.Forall₂ (fun n vm => ValueModifiers.lookup n = some vm) names vms)
    (last : Option GoString) (field value : Value) :
    (∀ cmp, chainComparator Comparators Comparator.baseComparator last = some cmp →
      ∃ f value' text,
        GetComparator caseTable (names ++ last.toList) = .ok f ∧
        modifyInOrder vms value = .ok value' ∧
        cmp.Bridges caseTable field value' = .ok text ∧
        f field value = .ok text) ∧
    (∀ cmp, chainComparator ComparatorsCaseSensitive Comparator.baseComparatorCaseSensitive
        last = some cmp →
      ∃ f value' text,
        GetComparatorCaseSensitive caseTable (names ++ last.toList) = .ok f ∧
        modifyInOrder vms value = .ok value' ∧
        cmp.Bridges caseTable field value' = .ok text ∧
        f field value = .ok text) :=
  ⟨fun cmp hc => getComparator_valid caseTable Comparators isComparatorTable_Comparators
      false names vms h last cmp hc field value,
   fun cmp hc => getComparator_valid caseTable ComparatorsCaseSensitive
      isComparatorTable_ComparatorsCaseSensitive true names vms h last cmp hc field value⟩

/-- C2, at the chain `wide`, `base64`, `contains` with field `Image` and value
`aB`. -/
theorem getComparator_applies_chain_witness :
    ∃ f value' text,
      GetComparator (fun r => r) ([lit "wide", lit "base64"] ++ (some (lit "contains")).toList)
        = .ok f ∧
      modifyInOrder [ValueModifier.wide, ValueModifier.b64] (Value.str (lit "aB")) = .ok value' ∧
      Comparator.contains.Bridges (fun r => r) (Value.str (lit "Image")) value' = .ok text ∧
      f (Value.str (lit "Image")) (Value.str (lit "aB")) = .ok text :=
  (getComparator_applies_chain (fun r => r) [lit "wide", lit "base64"]
    [ValueModifier.wide, ValueModifier.b64]
    (List.Forall₂.cons (by decide) (List.Forall₂.cons (by decide) List.Forall₂.nil))
    (some (lit "contains")) (Value.str (lit "Image")) (Value.str (lit "aB"))).1
    Comparator.contains (by decide)

/-- C3 as stated fails: in the chain `foo`, `contains`, `base64` the comparator
name `contains` is not the last name, yet the error is the unknown-modifier
error for `foo` and not the invalid-order error. -/
theorem invalid_order_counterexample :
    lit "contains" ∈ comparatorNames ∧
    GetComparator (fun r => r) [lit "foo", lit "contains", lit "base64"] =
      .error (unknownModifierError (lit "foo")) ∧
    GetComparator (fun r => r) [lit "foo", lit "contains", lit "base64"] ≠
      .error (invalidOrderError (lit "contains")) := by
  have h : GetComparator (fun r => r) [lit "foo", lit "contains", lit "base64"] =
      .error (unknownModifierError (lit "foo")) :=
    getComparator_first_unknown _ Comparators isComparatorTable_Comparators false []
      (lit "foo") [lit "contains", lit "base64"] (by simp) (by decide) (by decide)
  refine ⟨by decide, h, ?_⟩
  rw [h]
  intro he
  have : unknownModifierError (lit "foo") = invalidOrderError (lit "contains") :=
    Except.error.inj he
  exact absurd this (by decide)

/-- C3, amended: when a comparator name `c` stands at a position other than the
last and no comparator name stands before it, `getComparator` fails in both
modes with the error of the first offending name: the invalid-order error for
`c` when every name before it is a value-modifier name, and the
unknown-modifier error for the first name before it that is not one. -/
theorem comparator_not_last_fails (caseTable : Nat → Nat) (pre : List GoString)
    (c : GoString) (post : List GoString)
    (hc : c ∈ comparatorNames) (hpost : post ≠ [])
    (hfirst : ∀ m ∈ pre, m ∉ comparatorNames) :
    GetComparator caseTable (pre ++ c :: post) =
      .error (match pre.find? (fun m => decide (m ∉ valueModifierNames)) with
        | none => invalidOrderError c
        | some u => unknownModifierError u) ∧
    GetComparatorCaseSensitive caseTable (pre ++ c :: post) =
      .error (match pre.find? (fun m => decide (m ∉ valueModifierNames)) with
        | none => invalidOrderError c
        | some u => unknownModifierError u) := by
  cases hfind : pre.find? (fun m => decide (m ∉ valueModifierNames)) with
  | none =>
    have hpre : ∀ m ∈ pre, m ∈ valueModifierNames := by
      intro m hm
      have := List.find?_eq_none.1 hfind m hm
      simpa using this
    exact ⟨getComparator_first_misplaced caseTable Comparators isComparatorTable_Comparators
        false pre c post hpre hc hpost,
      getComparator_first_misplaced caseTable ComparatorsCaseSensitive
        isComparatorTable_ComparatorsCaseSensitive true pre c post hpre hc hpost⟩
  | some u =>
    obtain ⟨hu, as, bs, hsplit, has⟩ := List.find?_eq_some.1 hfind
    have huv : u ∉ valueModifierNames := by simpa using hu
    have huc : u ∉ comparatorNames := hfirst u (by rw [hsplit]; simp)
    have hpre : ∀ m ∈ as, m ∈ valueModifierNames := by
      intro m hm
      have := has m hm
      simpa using this
    have hlist : pre ++ c :: post = as ++ u :: (bs ++ c :: post) := by
      rw [hsplit]; simp
    rw [hlist]
    exact ⟨getComparator_first_unknown caseTable Comparators isComparatorTable_Comparators
        false as u _ hpre huc huv,
      getComparator_first_unknown caseTable ComparatorsCaseSensitive
        isComparatorTable_ComparatorsCaseSensitive true as u _ hpre huc huv⟩

/-- C3 amended, at the chain `base64`, `re`, `wide`. -/
theorem comparator_not_last_fails_witness :
    GetComparator (fun r => r) ([lit "base64"] ++ lit "re" :: [lit "wide"]) =
      .error (invalidOrderError (lit "re")) ∧
    GetComparatorCaseSensitive (fun r => r) ([lit "base64"] ++ lit "re" :: [lit "wide"]) =
      .error (invalidOrderError (lit "re")) :=
  comparator_not_last_fails (fun r => r) [lit "base64"] (lit "re") [lit "wide"]
    (by decide) (by decide) (by decide)

/-- C4 as stated fails: in the chain `contains`, `foo` the name `foo` is in
neither table, yet the error is the invalid-order error for `contains` and not
the unknown-modifier error. -/
theorem unknown_modifier_counterexample :
    lit "foo" ∉ comparatorNames ∧ lit "foo" ∉ valueModifierNames ∧
    GetComparator (fun r => r) [lit "contains", lit "foo"] =
      .error (invalidOrderError (lit "contains")) ∧
    GetComparator (fun r => r) [lit "contains", lit "foo"] ≠
      .error (unknownModifierError (lit "foo")) := by
  have h : GetComparator (fun r => r) [lit "contains", lit "foo"] =
      .error (invalidOrderError (lit "contains")) :=
    getComparator_first_misplaced _ Comparators isComparatorTable_Comparators false []
      (lit "contains") [lit "foo"] (by simp) (by decide) (by decide)
  refine ⟨by decide, by decide, h, ?_⟩
  rw [h]
  intro he
  have : invalidOrderError (lit "contains") = unknownModifierError (lit "foo") :=
    Except.error.inj he
  exact absurd this (by decide)

/-- C4, amended: when a name `u` of the chain is in neither the mode's
comparator table nor the value-modifier table and every name before it is in
one of them, `getComparator` fails in both modes with the error of the first
offending name: the unknown-modifier error for `u` when no comparator name
stands before it, and the invalid-order error for the first comparator name
before it otherwise. -/
theorem unknown_modifier_fails (caseTable : Nat → Nat) (pre : List GoString)
    (u : GoString) (post : List GoString)
    (huc : u ∉ comparatorNames) (huv : u ∉ valueModifierNames)
    (hfirst : ∀ m ∈ pre, m ∈ comparatorNames ∨ m ∈ valueModifierNames) :
    GetComparator caseTable (pre ++ u :: post) =
      .error (match pre.find? (fun m => decide (m ∈ comparatorNames)) with
        | none => unknownModifierError u
        | some c => invalidOrderError c) ∧
    GetComparatorCaseSensitive caseTable (pre ++ u :: post) =
      .error (match pre.find? (fun m => decide (m ∈ comparatorNames)) with
        | none => unknownModifierError u
        | some c => invalidOrderError c) := by
  cases hfind : pre.find? (fun m => decide (m ∈ comparatorNames)) with
  | none =>
    have hpre : ∀ m ∈ pre, m ∈ valueModifierNames := by
      intro m hm
      have hn : m ∉ comparatorNames := by
        have := List.find?_eq_none.1 hfind m hm
        simpa using this
      exact (hfirst m hm).resolve_left hn
    exact ⟨getComparator_first_unknown caseTable Comparators isComparatorTable_Comparators
        false pre u post hpre huc huv,
      getComparator_first_unknown caseTable ComparatorsCaseSensitive
        isComparatorTable_ComparatorsCaseSensitive true pre u post hpre huc huv⟩
  | some c =>
    obtain ⟨hcp, as, bs, hsplit, has⟩ := List.find?_eq_some.1 hfind
    have hc : c ∈ comparatorNames := by simpa using hcp
    have hpre : ∀ m ∈ as, m ∈ valueModifierNames := by
      intro m hm
      have hn : m ∉ comparatorNames := by
        have := has m hm
        simpa using this
      exact (hfirst m (by rw [hsplit]; simp [hm])).resolve_left hn
    have hlist : pre ++ u :: post = as ++ c :: (bs ++ u :: post) := by
      rw [hsplit]; simp
    rw [hlist]
    exact ⟨getComparator_first_misplaced caseTable Comparators isComparatorTable_Comparators
        false as c _ hpre hc (by simp),
      getComparator_first_misplaced caseTable ComparatorsCaseSensitive
        isComparatorTable_ComparatorsCaseSensitive true as c _ hpre hc (by simp)⟩

/-- C4 amended, at the chain `wide`, `foo`, `contains`. -/
theorem unknown_modifier_fails_witness :
    GetComparator (fun r => r) ([lit "wide"] ++ lit "foo" :: [lit "contains"]) =
      .error (unknownModifierError (lit "foo")) ∧
    GetComparatorCaseSensitive (fun r => r) ([lit "wide"] ++ lit "foo" :: [lit "contains"]) =
      .error (unknownModifierError (lit "foo")) :=
  unknown_modifier_fails (fun r => r) [lit "wide"] (lit "foo") [lit "contains"]
    (by decide) (by decide) (by decide)

/-! ## The comparators -/

theorem lit_eq_quote : lit "=\"" = [0x3D, 0x22] := by decide

theorem lit_quote : lit "\"" = [0x22] := by decide

theorem lit_eq_quote_star : lit "=\"*" = [0x3D, 0x22, 0x2A] := by decide

theorem lit_star_quote : lit "*\"" = [0x2A, 0x22] := by decide

/-- The template of the default comparators in terms of the function
`EscapeBackslashes`: outside the nil-field/"null" special case they emit the
lower-cased field, then `=`, `"`, what `EscapeBackslashes` returns for the
value and `"`; `baseComparator` (the default of the insensitive mode)
lower-cases that text, `baseComparatorCaseSensitive` (the default of the
sensitive mode) does not. -/
theorem default_comparator_output (caseTable : Nat → Nat) (f v : Value)
    (h : ¬ (f = Value.nil ∧ v = Value.str (lit "null"))) :
    GetComparator caseTable [] = .ok (Comparator.baseComparator.Bridges caseTable) ∧
    GetComparatorCaseSensitive caseTable [] =
      .ok (Comparator.baseComparatorCaseSensitive.Bridges caseTable) ∧
    Comparator.baseComparator.Bridges caseTable f v =
      .ok (ToLower caseTable (coerceString f) ++ [0x3D, 0x22] ++
        ToLower caseTable (EscapeBackslashes (coerceString v)) ++ [0x22]) ∧
    Comparator.baseComparatorCaseSensitive.Bridges caseTable f v =
      .ok (ToLower caseTable (coerceString f) ++ [0x3D, 0x22] ++
        EscapeBackslashes (coerceString v) ++ [0x22]) := by
  refine ⟨rfl, rfl, ?_, ?_⟩
  · simp only [Comparator.Bridges, if_neg h, lit_eq_quote, lit_quote]
  · simp only [Comparator.Bridges, if_neg h, lit_eq_quote, lit_quote]

/-- The default comparators at the pair `Field`, `Value`: `field="value"` in
the insensitive mode and `field="Value"` in the sensitive mode. -/
theorem default_comparator_output_witness :
    Comparator.baseComparator.Bridges (fun r => r) (Value.str (lit "Field"))
      (Value.str (lit "Value")) = .ok (lit "field=\"value\"") ∧
    Comparator.baseComparatorCaseSensitive.Bridges (fun r => r) (Value.str (lit "Field"))
      (Value.str (lit "Value")) = .ok (lit "field=\"Value\"") :=
  (default_comparator_output (fun r => r) (Value.str (lit "Field")) (Value.str (lit "Value"))
    (by decide)).2.2

/-- C6: in both modes the default comparator returns the empty string and no
error when the field is nil and the value is the string "null"; for every other
pair it returns a non-empty text that contains the `=` sign and two double
quotes. -/
theorem default_comparator_null (caseTable : Nat → Nat) (f v : Value) :
    (if f = Value.nil ∧ v = Value.str (lit "null") then
      Comparator.baseComparator.Bridges caseTable f v = .ok [] ∧
      Comparator.baseComparatorCaseSensitive.Bridges caseTable f v = .ok []
    else
      (∃ text, Comparator.baseComparator.Bridges caseTable f v = .ok text ∧
        text ≠ [] ∧ 0x3D ∈ text ∧ 2 ≤ text.count 0x22) ∧
      (∃ text, Comparator.baseComparatorCaseSensitive.Bridges caseTable f v = .ok text ∧
        text ≠ [] ∧ 0x3D ∈ text ∧ 2 ≤ text.count 0x22)) := by
  by_cases h : f = Value.nil ∧ v = Value.str (lit "null")
  · rw [if_pos h]
    simp only [Comparator.Bridges, if_pos h, and_self]
  · rw [if_neg h]
    simp only [Comparator.Bridges, if_neg h, lit_eq_quote, lit_quote]
    refine ⟨⟨_, rfl, by simp, by simp, ?_⟩, ⟨_, rfl, by simp, by simp, ?_⟩⟩
    · simp only [List.count_append, List.count_cons, List.count_nil]
      simp
      omega
    · simp only [List.count_append, List.count_cons, List.count_nil]
      simp
      omega

/-- The template of `contains`, `endswith` and `startswith` in terms of the
function `EscapeBackslashes`: the lower-cased field, then `=`, `"`, and what
`EscapeBackslashes` returns for the value with `*` on both sides, before it, or
after it, then `"`; that text is lower-cased in the insensitive table and left
as it is in the sensitive table.  `contains` on `EventID`, `4624` gives
`eventid="*4624*"` in the insensitive mode. -/
theorem wildcard_comparators_output (caseTable : Nat → Nat) (f v : Value) :
    Comparators.lookup (lit "contains") = some Comparator.contains ∧
    Comparators.lookup (lit "endswith") = some Comparator.endswith ∧
    Comparators.lookup (lit "startswith") = some Comparator.startswith ∧
    ComparatorsCaseSensitive.lookup (lit "contains") = some Comparator.containsCS ∧
    ComparatorsCaseSensitive.lookup (lit "endswith") = some Comparator.endswithCS ∧
    ComparatorsCaseSensitive.lookup (lit "startswith") = some Comparator.startswithCS ∧
    Comparator.contains.Bridges caseTable f v =
      .ok (ToLower caseTable (coerceString f) ++ [0x3D, 0x22] ++ [0x2A] ++
        ToLower caseTable (EscapeBackslashes (coerceString v)) ++ [0x2A] ++ [0x22]) ∧
    Comparator.endswith.Bridges caseTable f v =
      .ok (ToLower caseTable (coerceString f) ++ [0x3D, 0x22] ++ [0x2A] ++
        ToLower caseTable (EscapeBackslashes (coerceString v)) ++ [0x22]) ∧
    Comparator.startswith.Bridges caseTable f v =
      .ok (ToLower caseTable (coerceString f) ++ [0x3D, 0x22] ++
        ToLower caseTable (EscapeBackslashes (coerceString v)) ++ [0x2A] ++ [0x22]) ∧
    Comparator.containsCS.Bridges caseTable f v =
      .ok (ToLower caseTable (coerceString f) ++ [0x3D, 0x22] ++ [0x2A] ++
        EscapeBackslashes (coerceString v) ++ [0x2A] ++ [0x22]) ∧
    Comparator.endswithCS.Bridges caseTable f v =
      .ok (ToLower caseTable (coerceString f) ++ [0x3D, 0x22] ++ [0x2A] ++
        EscapeBackslashes (coerceString v) ++ [0x22]) ∧
    Comparator.startswithCS.Bridges caseTable f v =
      .ok (ToLower caseTable (coerceString f) ++ [0x3D, 0x22] ++
        EscapeBackslashes (coerceString v) ++ [0x2A] ++ [0x22]) ∧
    Comparator.contains.Bridges caseTable (Value.str (lit "EventID")) (Value.str (lit "4624")) =
      .ok (lit "eventid=\"*4624*\"") := by
  refine ⟨by decide, by decide, by decide, by decide, by decide, by decide,
    ?_, ?_, ?_, ?_, ?_, ?_, rfl⟩ <;>
  simp [Comparator.Bridges, lit_eq_quote, lit_quote, lit_eq_quote_star, lit_star_quote]

/-- The comparator `cidr` places the value between the quotes as it is, so a
value with one backslash is emitted with one backslash and the escaped value
does not occur in the output. -/
theorem cidr_does_not_escape :
    Comparators.lookup (lit "cidr") = some Comparator.cidr ∧
    Comparator.cidr.Bridges (fun r => r) (Value.str (lit "ip")) (Value.str (lit "a\\b")) =
      .ok (lit "ip=\"a\\b\"") ∧
    EscapeBackslashes (lit "a\\b") = lit "a\\\\b" ∧
    ¬ (EscapeBackslashes (lit "a\\b") <:+: lit "ip=\"a\\b\"") ∧
    (lit "ip=\"a\\b\"").count 0x5C = 1 := by
  refine ⟨by decide, rfl, by decide, by decide, by decide⟩

/-- What each comparator puts between the quotes: the default comparator
(outside the nil-field/"null" case), `contains`, `endswith`, `startswith` and
`re` put what `EscapeBackslashes` returns for the value there, in both tables,
the insensitive default, `contains`, `endswith` and `startswith` lower-casing it
afterwards, and that text holds twice the backslashes of the value; `cidr`,
`gt`, `gte`, `lt` and `lte` put the value there unescaped. -/
theorem comparators_quoted_value (caseTable : Nat → Nat) (f v : Value)
    (h : ¬ (f = Value.nil ∧ v = Value.str (lit "null"))) :
    (∀ p ∈ [(Comparator.baseComparator, lit "", lit ""),
        (Comparator.contains, lit "*", lit "*"),
        (Comparator.endswith, lit "*", lit ""),
        (Comparator.startswith, lit "", lit "*")],
      p.1.Bridges caseTable f v =
        .ok (ToLower caseTable (coerceString f) ++ lit "=" ++ [0x22] ++ p.2.1 ++
          ToLower caseTable (EscapeBackslashes (coerceString v)) ++ p.2.2 ++ [0x22])) ∧
    (∀ p ∈ [(Comparator.baseComparatorCaseSensitive, lit "", lit ""),
        (Comparator.containsCS, lit "*", lit "*"),
        (Comparator.endswithCS, lit "*", lit ""),
        (Comparator.startswithCS, lit "", lit "*")],
      p.1.Bridges caseTable f v =
        .ok (ToLower caseTable (coerceString f) ++ lit "=" ++ [0x22] ++ p.2.1 ++
          EscapeBackslashes (coerceString v) ++ p.2.2 ++ [0x22])) ∧
    Comparator.re.Bridges caseTable f v =
      .ok (lit " | regex " ++ ToLower caseTable (coerceString f) ++ lit "=" ++ [0x22] ++
        EscapeBackslashes (coerceString v) ++ [0x22]) ∧
    (EscapeBackslashes (coerceString v)).count 0x5C = 2 * (coerceString v).count 0x5C ∧
    (∀ p ∈ [(Comparator.cidr, lit "="), (Comparator.gt, lit " > "),
        (Comparator.gte, lit " >= "), (Comparator.lt, lit " < "), (Comparator.lte, lit " <= ")],
      p.1.Bridges caseTable f v =
        .ok (ToLower caseTable (coerceString f) ++ p.2 ++ [0x22] ++ coerceString v ++
          [0x22])) := by
  have q0 : lit "=\"" = lit "=" ++ [0x22] := by decide
  have q0s : lit "=\"*" = lit "=" ++ [0x22] ++ lit "*" := by decide
  have qs : lit "*\"" = lit "*" ++ [0x22] := by decide
  have q1 : lit " > \"" = lit " > " ++ [0x22] := by decide
  have q2 : lit " >= \"" = lit " >= " ++ [0x22] := by decide
  have q3 : lit " < \"" = lit " < " ++ [0x22] := by decide
  have q4 : lit " <= \"" = lit " <= " ++ [0x22] := by decide
  have qe : lit "" = [] := by decide
  refine ⟨?_, ?_, ?_, count_EscapeBackslashes _, ?_⟩
  · intro p hp
    simp only [List.mem_cons, List.mem_singleton, List.not_mem_nil, or_false] at hp
    rcases hp with rfl | rfl | rfl | rfl <;>
      simp [Comparator.Bridges, h, q0, q0s, qs, lit_quote, qe]
  · intro p hp
    simp only [List.mem_cons, List.mem_singleton, List.not_mem_nil, or_false] at hp
    rcases hp with rfl | rfl | rfl | rfl <;>
      simp [Comparator.Bridges, h, q0, q0s, qs, lit_quote, qe]
  · simp [Comparator.Bridges, q0, lit_quote]
  · intro p hp
    simp only [List.mem_cons, List.mem_singleton, List.not_mem_nil, or_false] at hp
    rcases hp with rfl | rfl | rfl | rfl | rfl <;>
      simp [Comparator.Bridges, q0, q1, q2, q3, q4, lit_quote]

/-- The count of backslashes at the field `Path` and the value `C:\Temp`. -/
theorem comparators_quoted_value_witness :
    (EscapeBackslashes (coerceString (Value.str (lit "C:\\Temp")))).count 0x5C =
      2 * (coerceString (Value.str (lit "C:\\Temp"))).count 0x5C :=
  (comparators_quoted_value (fun r => r) (Value.str (lit "Path")) (Value.str (lit "C:\\Temp"))
    (by decide)).2.2.2.1

/-! ## EscapeBackslashes -/

/-- On valid UTF-8 every backslash is doubled and every other byte is kept, in
the same order; a string without a backslash is returned unchanged, and the
output is longer than the input by the number of backslashes. -/
theorem EscapeBackslashes_valid (s : GoString) (h : IsUTF8 s) :
    EscapeBackslashes s = doubleBackslashes s ∧
    (0x5C ∉ s → EscapeBackslashes s = s) ∧
    (EscapeBackslashes s).length = s.length + s.count 0x5C := by
  have e := EscapeBackslashes_of_isUTF8 s h
  refine ⟨e, ?_, ?_⟩
  · intro hs
    rw [e, doubleBackslashes_of_not_mem s hs]
  · rw [e, length_doubleBackslashes]

/-- `C:\Temp`, with one backslash, becomes `C:\\Temp`, with two. -/
theorem EscapeBackslashes_example :
    EscapeBackslashes (lit "C:\\Temp") = lit "C:\\\\Temp" ∧
    (lit "C:\\Temp").count 0x5C = 1 ∧ (lit "C:\\\\Temp").count 0x5C = 2 := by
  decide

/-- C9 fails on strings that are not valid UTF-8.  The string of the two bytes
`E9 00` is what `wide` makes of the one-character string U+00E9; it holds no
backslash, yet `EscapeBackslashes` does not return it unchanged: the `range`
loop reads the byte `E9` as U+FFFD and writes the three bytes `EF BF BD` for
it, so the output is two bytes longer than the input.  The sensitive-mode chain
`wide` hands exactly this string to `EscapeBackslashes`. -/
theorem EscapeBackslashes_invalid_utf8 :
    ValueModifier.wide.Modify (Value.str [0xC3, 0xA9]) = .ok (Value.str [0xE9, 0x00]) ∧
    GoString.WF [0xE9, 0x00] ∧
    0x5C ∉ ([0xE9, 0x00] : GoString) ∧
    EscapeBackslashes [0xE9, 0x00] = [0xEF, 0xBF, 0xBD, 0x00] ∧
    EscapeBackslashes [0xE9, 0x00] ≠ [0xE9, 0x00] ∧
    EscapeBackslashes [0xE9, 0x00] ≠ doubleBackslashes [0xE9, 0x00] ∧
    (EscapeBackslashes [0xE9, 0x00]).length ≠
      ([0xE9, 0x00] : GoString).length + ([0xE9, 0x00] : GoString).count 0x5C ∧
    (∃ f, GetComparatorCaseSensitive (fun r => r) [lit "wide"] = .ok f ∧
      f (Value.str (lit "f")) (Value.str [0xC3, 0xA9]) =
        .ok (lit "f=\"" ++ [0xEF, 0xBF, 0xBD, 0x00] ++ lit "\"")) := by
  refine ⟨rfl, by decide, by decide, by decide, by decide, by decide, by decide,
    ⟨_, rfl, rfl⟩⟩

/-- C10 as stated fails: escaping `C:\Temp` twice gives four backslashes,
escaping it once gives two. -/
theorem EscapeBackslashes_not_idempotent :
    EscapeBackslashes (lit "C:\\Temp") = lit "C:\\\\Temp" ∧
    EscapeBackslashes (EscapeBackslashes (lit "C:\\Temp")) = lit "C:\\\\\\\\Temp" ∧
    EscapeBackslashes (EscapeBackslashes (lit "C:\\Temp")) ≠
      EscapeBackslashes (lit "C:\\Temp") := by
  decide

/-- C10, amended: escaping is not idempotent.  A second application doubles the
backslashes again: the escaped string has twice as many backslashes as its
input, and `EscapeBackslashes (EscapeBackslashes s) = EscapeBackslashes s` holds
exactly for the strings `s` without a backslash. -/
theorem EscapeBackslashes_twice_iff (s : GoString) :
    (EscapeBackslashes s).count 0x5C = 2 * s.count 0x5C ∧
    (EscapeBackslashes (EscapeBackslashes s) = EscapeBackslashes s ↔ 0x5C ∉ s) := by
  refine ⟨count_EscapeBackslashes s, ?_⟩
  constructor
  · intro h hs
    have hc := congrArg (List.count 0x5C) h
    rw [count_EscapeBackslashes, count_EscapeBackslashes] at hc
    have : 0 < s.count 0x5C := List.count_pos_iff.2 hs
    omega
  · intro hs
    have hr : 0x5C ∉ runesOf s := by
      intro hm
      have : 0 < (runesOf s).count 0x5C := List.count_pos_iff.2 hm
      rw [count_runesOf] at this
      exact hs (List.count_pos_iff.1 this)
    rw [EscapeBackslashes_eq (EscapeBackslashes s), runesOf_EscapeBackslashes,
      EscapeBackslashes_eq s, escapeRunes_of_not_mem _ hr, escapeRunes_of_not_mem _ hr]


/-! ## Lemmas on the aggregation lowering -/

theorem mapping_eq_firstMapped (rule : RuleEvaluator) (name : GoString) :
    (if (rule.mapping name).length ≠ 0 then (rule.mapping name).getD 0 [] else name) =
      firstMapped rule.fieldmappings name := by
  unfold RuleEvaluator.mapping firstMapped
  cases h : rule.fieldmappings.lookup name with
  | none => simp
  | some l =>
    cases l with
    | nil => simp
    | cons x xs => simp

theorem evaluateAggregationFunc_Count (rule : RuleEvaluator) (Field GroupedBy : GoString) :
    rule.evaluateAggregationFunc (.Count Field GroupedBy) =
      if Field = [] then
        if GroupedBy ≠ [] then .ok (lit "| stats count by" ++ GroupedBy ++ lit "| sort -count")
        else .ok (lit "| sort -count")
      else if GroupedBy ≠ [] then
        .ok (lit "| stats count by" ++ firstMapped rule.fieldmappings Field ++ lit "," ++
          firstMapped rule.fieldmappings GroupedBy ++ lit " | sort -count")
      else
        .ok (lit "| stats count by" ++ firstMapped rule.fieldmappings Field ++
          lit " | sort -count") := by
  simp only [RuleEvaluator.evaluateAggregationFunc, mapping_eq_firstMapped]

theorem evaluateAggregationFunc_Average (rule : RuleEvaluator) (Field GroupedBy : GoString) :
    rule.evaluateAggregationFunc (.Average Field GroupedBy) =
      .ok (statsFragment (lit "avg") (lit "average") (firstMapped rule.fieldmappings Field)
        (if GroupedBy = [] then none else some (firstMapped rule.fieldmappings GroupedBy))) := by
  have e1 : lit "| stats avg(" = lit "| stats " ++ lit "avg" ++ lit "(" := by decide
  have e2 : lit " AS average | sort -average" =
      lit " AS " ++ lit "average" ++ lit " | sort -" ++ lit "average" := by decide
  simp only [RuleEvaluator.evaluateAggregationFunc, mapping_eq_firstMapped, e1, e2]
  by_cases h : GroupedBy = [] <;> simp [h, statsFragment]

theorem evaluateAggregationFunc_Sum (rule : RuleEvaluator) (Field GroupedBy : GoString) :
    rule.evaluateAggregationFunc (.Sum Field GroupedBy) =
      .ok (statsFragment (lit "sum") (lit "sum") (firstMapped rule.fieldmappings Field)
        (if GroupedBy = [] then none else some (firstMapped rule.fieldmappings GroupedBy))) := by
  have e1 : lit "| stats sum(" = lit "| stats " ++ lit "sum" ++ lit "(" := by decide
  have e2 : lit " AS sum | sort -sum" =
      lit " AS " ++ lit "sum" ++ lit " | sort -" ++ lit "sum" := by decide
  simp only [RuleEvaluator.evaluateAggregationFunc, mapping_eq_firstMapped, e1, e2]
  by_cases h : GroupedBy = [] <;> simp [h, statsFragment]

theorem evaluateAggregationFunc_Min (rule : RuleEvaluator) (Field GroupedBy : GoString) :
    rule.evaluateAggregationFunc (.Min Field GroupedBy) =
      .ok (statsFragment (lit "min") (lit "min") (firstMapped rule.fieldmappings Field)
        (if GroupedBy = [] then none else some (firstMapped rule.fieldmappings GroupedBy))) := by
  have e1 : lit "| stats min(" = lit "| stats " ++ lit "min" ++ lit "(" := by decide
  have e2 : lit " AS min | sort -min" =
      lit " AS " ++ lit "min" ++ lit " | sort -" ++ lit "min" := by decide
  simp only [RuleEvaluator.evaluateAggregationFunc, mapping_eq_firstMapped, e1, e2]
  by_cases h : GroupedBy = [] <;> simp [h, statsFragment]

theorem evaluateAggregationFunc_Max (rule : RuleEvaluator) (Field GroupedBy : GoString) :
    rule.evaluateAggregationFunc (.Max Field GroupedBy) =
      .ok (statsFragment (lit "max") (lit "max") (firstMapped rule.fieldmappings Field)
        (if GroupedBy = [] then none else some (firstMapped rule.fieldmappings GroupedBy))) := by
  have e1 : lit "| stats max(" = lit "| stats " ++ lit "max" ++ lit "(" := by decide
  have e2 : lit " AS max | sort -max" =
      lit " AS " ++ lit "max" ++ lit " | sort -" ++ lit "max" := by decide
  simp only [RuleEvaluator.evaluateAggregationFunc, mapping_eq_firstMapped, e1, e2]
  by_cases h : GroupedBy = [] <;> simp [h, statsFragment]

theorem firstMapped_nil_table (name : GoString) : firstMapped [] name = name := rfl

theorem evaluateAggregationFunc_supported (rule : RuleEvaluator) (f : AggregationFunc)
    (h : f.supported = true) : ∃ text, rule.evaluateAggregationFunc f = .ok text := by
  cases f with
  | Count F G =>
    rw [evaluateAggregationFunc_Count]
    split_ifs <;> exact ⟨_, rfl⟩
  | Average F G => exact ⟨_, evaluateAggregationFunc_Average rule F G⟩
  | Sum F G => exact ⟨_, evaluateAggregationFunc_Sum rule F G⟩
  | Min F G => exact ⟨_, evaluateAggregationFunc_Min rule F G⟩
  | Max F G => exact ⟨_, evaluateAggregationFunc_Max rule F G⟩
  | other => simp [AggregationFunc.supported] at h

/-- Away from `Count` with an empty `Field` and a `GroupedBy`, and for a table of
non-empty names, the fragment is the fragment of the empty table after the
substitution of the first mapped names. -/
theorem evaluateAggregationFunc_substituteNames (table : List (GoString × List GoString))
    (hw : NamesNonEmpty table) (f : AggregationFunc)
    (hf : ∀ g, g ≠ [] → f ≠ .Count [] g) :
    (RuleEvaluator.mk table).evaluateAggregationFunc f =
      (RuleEvaluator.mk []).evaluateAggregationFunc (substituteNames table f) := by
  obtain ⟨hw0, hw1⟩ := hw
  have hs : ∀ n, substituteName table n = firstMapped table n := by
    intro n
    unfold substituteName
    by_cases hn : n = []
    · rw [if_pos hn, hn, hw0]
    · rw [if_neg hn]
  have hz : ∀ n, firstMapped table n = [] ↔ n = [] := by
    intro n
    constructor
    · intro h
      by_contra hn
      exact hw1 n hn h
    · intro h; rw [h, hw0]
  cases f with
  | Count F G =>
    simp only [substituteNames, evaluateAggregationFunc_Count, firstMapped_nil_table, hs, hz]
    by_cases hF : F = []
    · by_cases hG : G = []
      · simp [hF, hG, hw0]
      · subst hF
        exact absurd rfl (hf G hG)
    · simp [hF, hz]
  | Average F G =>
    simp only [substituteNames, evaluateAggregationFunc_Average, firstMapped_nil_table, hs, hz]
  | Sum F G =>
    simp only [substituteNames, evaluateAggregationFunc_Sum, firstMapped_nil_table, hs, hz]
  | Min F G =>
    simp only [substituteNames, evaluateAggregationFunc_Min, firstMapped_nil_table, hs, hz]
  | Max F G =>
    simp only [substituteNames, evaluateAggregationFunc_Max, firstMapped_nil_table, hs, hz]
  | other => rfl

theorem digitChar_toNat : ∀ k, k < 10 → (Nat.digitChar k).toNat = 0x30 + k := by
  decide

theorem decimal_toDigitsCore (fuel : Nat) :
    ∀ (n : Nat) (ds : List Char), n < fuel →
      decimalValue ((Nat.toDigitsCore 10 fuel n ds).map Char.toNat) =
        (ds.map Char.toNat).foldl (fun acc d => acc * 10 + (d - 0x30)) n := by
  induction fuel with
  | zero => intro n ds h; omega
  | succ fuel ih =>
    intro n ds h
    have hd := digitChar_toNat (n % 10) (Nat.mod_lt _ (by decide))
    simp only [Nat.toDigitsCore]
    split_ifs with h0
    · simp only [decimalValue, List.map_cons, List.foldl_cons, hd]
      congr 1
      omega
    · rw [ih (n / 10) _ (by omega)]
      simp only [List.map_cons, List.foldl_cons, hd]
      congr 1
      omega

theorem digits_toDigitsCore (fuel : Nat) :
    ∀ (n : Nat) (ds : List Char), (∀ c ∈ ds, 0x30 ≤ c.toNat ∧ c.toNat ≤ 0x39) →
      ∀ c ∈ Nat.toDigitsCore 10 fuel n ds, 0x30 ≤ c.toNat ∧ c.toNat ≤ 0x39 := by
  induction fuel with
  | zero => intro n ds h; simpa [Nat.toDigitsCore] using h
  | succ fuel ih =>
    intro n ds h
    have hd := digitChar_toNat (n % 10) (Nat.mod_lt _ (by decide))
    have hlt : n % 10 < 10 := Nat.mod_lt _ (by decide)
    have hcons : ∀ c ∈ Nat.digitChar (n % 10) :: ds, 0x30 ≤ c.toNat ∧ c.toNat ≤ 0x39 := by
      intro c hc
      rcases List.mem_cons.1 hc with rfl | hc
      · rw [hd]; omega
      · exact h c hc
    simp only [Nat.toDigitsCore]
    split_ifs with h0
    · exact hcons
    · exact ih _ _ hcons

/-- The text of a natural number is a non-empty string of decimal digits that
denotes the number. -/
theorem formatNat_decimal (n : Nat) :
    formatNat n ≠ [] ∧ (∀ d ∈ formatNat n, 0x30 ≤ d ∧ d ≤ 0x39) ∧
      decimalValue (formatNat n) = n := by
  refine ⟨?_, ?_, ?_⟩
  · intro h
    have hv := decimal_toDigitsCore (n + 1) n [] (by omega)
    have h0 : decimalValue (formatNat n) = 0 := by rw [h]; rfl
    have : n = 0 := by
      unfold formatNat Nat.toDigits at h0
      rw [hv] at h0
      simpa using h0
    subst this
    exact absurd h (by decide)
  · intro d hd
    unfold formatNat Nat.toDigits at hd
    obtain ⟨c, hc, rfl⟩ := List.mem_map.1 hd
    exact digits_toDigitsCore (n + 1) n [] (by simp) c hc
  · have hv := decimal_toDigitsCore (n + 1) n [] (by omega)
    unfold formatNat Nat.toDigits
    rw [hv]
    rfl

/-! ## The aggregation lowering -/

/-- C11 fails for `Count` with an empty `Field` and a `GroupedBy`: with `user`
mapped to `Account_Name`, `UserID`, counting grouped by `user` emits `user` and
not `Account_Name`, because this branch does not consult the table; the
fragment of the empty table after the substitution names `Account_Name`, and
so does `Count` with a `Field` next to the same `GroupedBy`. -/
theorem Count_groupedBy_not_mapped :
    (RuleEvaluator.mk [(lit "user", [lit "Account_Name", lit "UserID"])]).evaluateAggregationFunc
        (.Count (lit "") (lit "user")) = .ok (lit "| stats count byuser| sort -count") ∧
    lit "user" <:+: lit "| stats count byuser| sort -count" ∧
    ¬ (lit "Account_Name" <:+: lit "| stats count byuser| sort -count") ∧
    substituteNames [(lit "user", [lit "Account_Name", lit "UserID"])]
        (.Count (lit "") (lit "user")) = .Count (lit "") (lit "Account_Name") ∧
    (RuleEvaluator.mk []).evaluateAggregationFunc (.Count (lit "") (lit "Account_Name")) =
      .ok (lit "| stats count byAccount_Name| sort -count") ∧
    (RuleEvaluator.mk [(lit "user", [lit "Account_Name", lit "UserID"])]).evaluateAggregationFunc
        (.Count (lit "host") (lit "user")) =
      .ok (lit "| stats count byhost,Account_Name | sort -count") :=
  ⟨rfl, by decide, by decide, rfl, rfl, rfl⟩

/-- C12: for every field-mapping table and every aggregation expression of the
data model, the lowering returns an error if and only if the expression is
`Near`; so `Near` fails and every `Comparison` whose function is one of `Count`,
`Average`, `Sum`, `Min`, `Max` succeeds, whatever its fields, operator and
threshold are. -/
theorem aggregation_error_iff_near (rule : RuleEvaluator) (expr : AggregationExpr)
    (h : expr.inDataModel = true) :
    (∃ err, rule.evaluateAggregationExpression expr = .error err) ↔ expr = .Near := by
  cases expr with
  | Near => exact ⟨fun _ => rfl, fun _ => ⟨_, rfl⟩⟩
  | Comparison f op th =>
    obtain ⟨text, ht⟩ := evaluateAggregationFunc_supported rule f h
    constructor
    · rintro ⟨err, he⟩
      simp only [RuleEvaluator.evaluateAggregationExpression, ht] at he
      exact Except.noConfusion he
    · intro he
      exact AggregationExpr.noConfusion he
  | other => simp [AggregationExpr.inDataModel] at h

/-- C12, at `Near` and at a comparison of `Count` of `user` with 5. -/
theorem aggregation_error_iff_near_witness :
    ((∃ err, (RuleEvaluator.mk []).evaluateAggregationExpression .Near = .error err) ↔
      AggregationExpr.Near = .Near) ∧
    ((∃ err, (RuleEvaluator.mk []).evaluateAggregationExpression
        (.Comparison (.Count (lit "user") (lit "")) (lit ">") 5) = .error err) ↔
      AggregationExpr.Comparison (.Count (lit "user") (lit "")) (lit ">") 5 = .Near) :=
  ⟨aggregation_error_iff_near (RuleEvaluator.mk []) .Near rfl,
   aggregation_error_iff_near (RuleEvaluator.mk [])
     (.Comparison (.Count (lit "user") (lit "")) (lit ">") 5) rfl⟩

/-- C13: when the function of a `Comparison` lowers to the fragment `F`, the
expression lowers to `F`, one space, the operator text, one space and the
threshold, with nothing after it; the threshold is written as a minus sign when
it is negative followed by the decimal digits of its absolute value. -/
theorem comparison_fragment (rule : RuleEvaluator) (Func : AggregationFunc) (Op : GoString)
    (Threshold : Int) (F : GoString) (h : rule.evaluateAggregationFunc Func = .ok F) :
    rule.evaluateAggregationExpression (.Comparison Func Op Threshold) =
      .ok (F ++ [0x20] ++ Op ++ [0x20] ++
        ((if Threshold < 0 then [0x2D] else []) ++ formatNat Threshold.natAbs)) ∧
    formatNat Threshold.natAbs ≠ [] ∧
    (∀ d ∈ formatNat Threshold.natAbs, 0x30 ≤ d ∧ d ≤ 0x39) ∧
    decimalValue (formatNat Threshold.natAbs) = Threshold.natAbs := by
  obtain ⟨h1, h2, h3⟩ := formatNat_decimal Threshold.natAbs
  refine ⟨?_, h1, h2, h3⟩
  have hsp : lit " " = [0x20] := by decide
  simp only [RuleEvaluator.evaluateAggregationExpression, h, hsp, formatInt]
  by_cases hneg : Threshold < 0
  · simp [hneg]
  · have : Threshold.toNat = Threshold.natAbs := by omega
    simp [hneg, this]

/-- C13, at `Count` of `user` with the operators and thresholds `>= 10` and
`== -3`. -/
theorem comparison_fragment_witness :
    (RuleEvaluator.mk []).evaluateAggregationExpression
        (.Comparison (.Count (lit "") (lit "")) (lit ">=") 10) =
      .ok (lit "| sort -count >= 10") ∧
    (RuleEvaluator.mk []).evaluateAggregationExpression
        (.Comparison (.Count (lit "") (lit "")) (lit "==") (-3)) =
      .ok (lit "| sort -count == -3") :=
  ⟨(comparison_fragment (RuleEvaluator.mk []) (.Count (lit "") (lit "")) (lit ">=") 10
      (lit "| sort -count") rfl).1,
   (comparison_fragment (RuleEvaluator.mk []) (.Count (lit "") (lit "")) (lit "==") (-3)
      (lit "| sort -count") rfl).1⟩

/-- C14 fails: `Count` with the `Field` `user`, no `GroupedBy` and no mappings
lowers to `| stats count byuser | sort -count`; the field name follows the
keyword `by` with no space in between, so the text is not
`| stats count by user | sort -count`. -/
theorem Count_field_no_space :
    (RuleEvaluator.mk []).evaluateAggregationFunc (.Count (lit "user") (lit "")) =
      .ok (lit "| stats count byuser | sort -count") ∧
    lit "| stats count byuser | sort -count" ≠ lit "| stats count by user | sort -count" ∧
    ¬ (lit "by user" <:+: lit "| stats count byuser | sort -count") ∧
    (RuleEvaluator.mk []).evaluateAggregationFunc (.Average (lit "user") (lit "")) =
      .ok (lit "| stats avg(user) by user AS average | sort -average") :=
  ⟨rfl, by decide, by decide, rfl⟩

/-- C15: for every field-mapping table, `Count` with an empty `Field` and an
empty `GroupedBy` lowers, without error, to exactly `| sort -count`, a text
with no `stats` stage. -/
theorem Count_all_records (rule : RuleEvaluator) :
    rule.evaluateAggregationFunc (.Count (lit "") (lit "")) = .ok (lit "| sort -count") ∧
    ¬ (lit "stats" <:+: lit "| sort -count") :=
  ⟨rfl, by decide⟩

/-- C16: `Average`, `Sum`, `Min` and `Max` lower to `| stats fn(F) by F AS a |
sort -a` when `GroupedBy` is empty and to `| stats fn(F) by F,G AS a | sort -a`
when it is not, with `F` and `G` the first mapped names of `Field` and
`GroupedBy` and with `fn` and `a` being `avg` and `average`, `sum` and `sum`,
`min` and `min`, `max` and `max`; the four differ in nothing else. -/
theorem stats_functions_fragment (rule : RuleEvaluator) (Field GroupedBy : GoString) :
    ∀ p ∈ [(AggregationFunc.Average, lit "avg", lit "average"),
        (AggregationFunc.Sum, lit "sum", lit "sum"),
        (AggregationFunc.Min, lit "min", lit "min"),
        (AggregationFunc.Max, lit "max", lit "max")],
      rule.evaluateAggregationFunc (p.1 Field GroupedBy) =
        .ok (statsFragment p.2.1 p.2.2 (firstMapped rule.fieldmappings Field)
          (if GroupedBy = [] then none else some (firstMapped rule.fieldmappings GroupedBy))) := by
  intro p hp
  simp only [List.mem_cons, List.mem_singleton, List.not_mem_nil, or_false] at hp
  rcases hp with rfl | rfl | rfl | rfl
  · exact evaluateAggregationFunc_Average rule Field GroupedBy
  · exact evaluateAggregationFunc_Sum rule Field GroupedBy
  · exact evaluateAggregationFunc_Min rule Field GroupedBy
  · exact evaluateAggregationFunc_Max rule Field GroupedBy

set_option maxRecDepth 100000 in
/-- C16, at `Sum` of `user` grouped by `host` with `user` mapped to
`Account_Name`, `UserID`, and at `Max` of `bytes` without grouping. -/
theorem stats_functions_fragment_witness :
    (RuleEvaluator.mk [(lit "user", [lit "Account_Name", lit "UserID"])]).evaluateAggregationFunc
        (.Sum (lit "user") (lit "host")) =
      .ok (lit "| stats sum(Account_Name) by Account_Name,host AS sum | sort -sum") ∧
    (RuleEvaluator.mk [(lit "user", [lit "Account_Name", lit "UserID"])]).evaluateAggregationFunc
        (.Max (lit "bytes") (lit "")) =
      .ok (lit "| stats max(bytes) by bytes AS max | sort -max") :=
  ⟨stats_functions_fragment (RuleEvaluator.mk [(lit "user", [lit "Account_Name", lit "UserID"])])
      (lit "user") (lit "host") (AggregationFunc.Sum, lit "sum", lit "sum")
      (List.Mem.tail _ (List.Mem.head _)),
   stats_functions_fragment (RuleEvaluator.mk [(lit "user", [lit "Account_Name", lit "UserID"])])
      (lit "bytes") (lit "") (AggregationFunc.Max, lit "max", lit "max")
      (List.Mem.tail _ (List.Mem.tail _ (List.Mem.tail _ (List.Mem.head _))))⟩

/-! ## Lemmas on the value modifiers -/

theorem utf16Units_bmp (r : Nat) (h : r < 0x10000) : utf16Units r = [r] := by
  unfold utf16Units; rw [if_pos h]

theorem utf16Units_pair (r : Nat) (h : ¬ r < 0x10000) :
    utf16Units r = [0xD800 + (r - 0x10000) / 1024, 0xDC00 + (r - 0x10000) % 1024] := by
  unfold utf16Units; rw [if_neg h]

theorem utf16Encode_cons (r : Nat) (hr : ValidRune r) (rs : List Nat) :
    utf16Encode (r :: rs) = utf16Units r ++ utf16Encode rs := by
  unfold ValidRune at hr
  have h1 : utf16Encode (r :: rs) =
      (if r < 0xD800 ∨ (0xE000 ≤ r ∧ r < 0x10000) then [r]
        else if 0x10000 ≤ r ∧ r ≤ 0x10FFFF then
          [0xD800 + (r - 0x10000) / 1024 % 1024, 0xDC00 + (r - 0x10000) % 1024]
        else [0xFFFD]) ++ utf16Encode rs := rfl
  rw [h1]
  congr 1
  by_cases hlt : r < 0x10000
  · have c1 : r < 0xD800 ∨ (0xE000 ≤ r ∧ r < 0x10000) := by omega
    rw [if_pos c1, utf16Units_bmp r hlt]
  · have c1 : ¬ (r < 0xD800 ∨ (0xE000 ≤ r ∧ r < 0x10000)) := by omega
    have c2 : 0x10000 ≤ r ∧ r ≤ 0x10FFFF := by omega
    have e : (r - 0x10000) / 1024 % 1024 = (r - 0x10000) / 1024 := by omega
    rw [if_neg c1, if_pos c2, utf16Units_pair r hlt, e]

theorem utf16Units_lt (r : Nat) (hr : ValidRune r) : ∀ u ∈ utf16Units r, u < 65536 := by
  unfold ValidRune at hr
  intro u hu
  unfold utf16Units at hu
  split_ifs at hu with hlt
  · have : u = r := by simpa using hu
    omega
  · simp only [List.mem_cons, List.mem_singleton, List.not_mem_nil, or_false] at hu
    rcases hu with h | h <;> omega

theorem putUint16s_append (as bs : List Nat) :
    putUint16s (as ++ bs) = putUint16s as ++ putUint16s bs := by
  simp [putUint16s, List.flatMap_append]

theorem putUint16s_of_lt (us : List Nat) (h : ∀ u ∈ us, u < 65536) :
    putUint16s us = us.flatMap (fun u => [u % 256, u / 256]) := by
  induction us with
  | nil => rfl
  | cons u us ih =>
    have hu : u < 65536 := h u (List.mem_cons_self _ _)
    have e : u / 256 % 256 = u / 256 := by omega
    have ih' := ih (fun x hx => h x (List.mem_cons_of_mem _ hx))
    simp only [putUint16s, List.flatMap_cons] at ih' ⊢
    rw [ih', e]

/-- On valid characters the bytes `wide.Modify` builds are the UTF-16LE
encoding. -/
theorem putUint16s_utf16Encode (rs : List Nat) (h : ∀ r ∈ rs, ValidRune r) :
    putUint16s (utf16Encode rs) = utf16le rs := by
  induction rs with
  | nil => rfl
  | cons r rs ih =>
    have hr := h r (List.mem_cons_self _ _)
    rw [utf16Encode_cons r hr, putUint16s_append, ih (fun x hx => h x (List.mem_cons_of_mem _ hx)),
      putUint16s_of_lt _ (utf16Units_lt r hr)]
    rfl

theorem getUint16s_utf16le (rs : List Nat) : getUint16s (utf16le rs) = rs.flatMap utf16Units := by
  induction rs with
  | nil => rfl
  | cons r rs ih =>
    have hc : utf16le (r :: rs) =
        (utf16Units r).flatMap (fun u => [u % 256, u / 256]) ++ utf16le rs := rfl
    have b1 : ∀ (u : Nat) (t : List Nat),
        ([u] : List Nat).flatMap (fun u => [u % 256, u / 256]) ++ t =
          u % 256 :: u / 256 :: t := fun _ _ => rfl
    have b2 : ∀ (u v : Nat) (t : List Nat),
        ([u, v] : List Nat).flatMap (fun u => [u % 256, u / 256]) ++ t =
          u % 256 :: u / 256 :: v % 256 :: v / 256 :: t := fun _ _ _ => rfl
    have g1 : ∀ (lo hi : Nat) (t : List Nat),
        getUint16s (lo :: hi :: t) = (lo + hi * 256) :: getUint16s t := fun _ _ _ => rfl
    have e1 : ∀ u : Nat, u % 256 + u / 256 * 256 = u := by intro u; omega
    rw [hc, List.flatMap_cons]
    by_cases hlt : r < 0x10000
    · rw [utf16Units_bmp r hlt, b1, g1, ih, e1]
      rfl
    · rw [utf16Units_pair r hlt, b2, g1, g1, ih, e1, e1]
      rfl

theorem length_utf16le (rs : List Nat) :
    (utf16le rs).length = 2 * (rs.flatMap utf16Units).length := by
  induction rs with
  | nil => rfl
  | cons r rs ih =>
    have hc : utf16le (r :: rs) =
        (utf16Units r).flatMap (fun u => [u % 256, u / 256]) ++ utf16le rs := rfl
    rw [hc, List.flatMap_cons, List.length_append, List.length_append, ih]
    by_cases hlt : r < 0x10000
    · rw [utf16Units_bmp r hlt]
      simp only [List.flatMap_cons, List.flatMap_nil, List.append_nil, List.length_cons,
        List.length_nil]
      omega
    · rw [utf16Units_pair r hlt]
      simp only [List.flatMap_cons, List.flatMap_nil, List.append_nil, List.length_cons,
        List.length_nil, List.cons_append, List.nil_append]
      omega

theorem utf16Decode_cons_bmp (u : Nat) (hu : u < 0xD800 ∨ 0xE000 ≤ u) (t : List Nat) :
    utf16Decode (u :: t) = u :: utf16Decode t := by
  cases t with
  | nil => simp [utf16Decode, hu]
  | cons v rest => simp [utf16Decode, hu]

theorem utf16Decode_units (rs : List Nat) (h : ∀ r ∈ rs, ValidRune r) :
    utf16Decode (rs.flatMap utf16Units) = rs := by
  induction rs with
  | nil => rfl
  | cons r rs ih =>
    have hr := h r (List.mem_cons_self _ _)
    have ih' := ih (fun x hx => h x (List.mem_cons_of_mem _ hx))
    unfold ValidRune at hr
    rw [List.flatMap_cons]
    by_cases hlt : r < 0x10000
    · have hb : r < 0xD800 ∨ 0xE000 ≤ r := by omega
      rw [utf16Units_bmp r hlt, List.singleton_append, utf16Decode_cons_bmp r hb, ih']
    · rw [utf16Units_pair r hlt]
      have h1 : ¬ (0xD800 + (r - 0x10000) / 1024 < 0xD800 ∨
          0xE000 ≤ 0xD800 + (r - 0x10000) / 1024) := by omega
      have h2 : 0xD800 + (r - 0x10000) / 1024 < 0xDC00 ∧
          0xDC00 ≤ 0xDC00 + (r - 0x10000) % 1024 ∧ 0xDC00 + (r - 0x10000) % 1024 < 0xE000 := by
        omega
      have hd : ∀ (u v : Nat) (t : List Nat), ¬ (u < 0xD800 ∨ 0xE000 ≤ u) →
          (u < 0xDC00 ∧ 0xDC00 ≤ v ∧ v < 0xE000) →
          utf16Decode (u :: v :: t) =
            ((u - 0xD800) * 1024 + (v - 0xDC00) + 0x10000) :: utf16Decode t := by
        intro u v t hu hv
        rw [utf16Decode, if_neg hu, if_pos hv]
      rw [List.cons_append, List.cons_append, List.nil_append, hd _ _ _ h1 h2, ih']
      have e : (0xD800 + (r - 0x10000) / 1024 - 0xD800) * 1024 +
          (0xDC00 + (r - 0x10000) % 1024 - 0xDC00) + 0x10000 = r := by omega
      rw [e]

theorem wide_Modify_str (s : GoString) :
    ValueModifier.wide.Modify (Value.str s) =
      .ok (Value.str (putUint16s (utf16Encode (runesOf s)))) := rfl

theorem base64Index_base64Char : ∀ n, n < 64 → base64Index (base64Char n) = some n := by
  decide

theorem base64Char_ne_pad : ∀ n, n < 64 → base64Char n ≠ 0x3D := by
  decide

theorem isBase64Char_base64Char (n : Nat) : IsBase64Char (base64Char n) := by
  unfold IsBase64Char base64Char
  split_ifs <;> omega

theorem base64Decode_group (c1 c2 c3 c4 : Nat) (rest : GoString) (n1 n2 n3 n4 : Nat)
    (h1 : base64Index c1 = some n1) (h2 : base64Index c2 = some n2)
    (h3 : base64Index c3 = some n3) (h4 : base64Index c4 = some n4)
    (p3 : c3 ≠ 0x3D) (p4 : c4 ≠ 0x3D) :
    base64Decode (c1 :: c2 :: c3 :: c4 :: rest) =
      match base64Decode rest with
      | some tail => some ((n1 * 4 + n2 / 16) :: (n2 % 16 * 16 + n3 / 4) :: (n3 % 4 * 64 + n4) :: tail)
      | none => none := by
  rw [base64Decode]
  simp only [h1, h2, h3, h4, p3, p4, false_and, if_false]
  cases base64Decode rest <;> rfl

theorem base64Decode_two (c1 c2 c3 : Nat) (n1 n2 n3 : Nat)
    (h1 : base64Index c1 = some n1) (h2 : base64Index c2 = some n2)
    (h3 : base64Index c3 = some n3) (p3 : c3 ≠ 0x3D) :
    base64Decode [c1, c2, c3, 0x3D] = some [n1 * 4 + n2 / 16, n2 % 16 * 16 + n3 / 4] := by
  rw [base64Decode]
  simp only [h1, h2, h3, p3, false_and, if_false, and_self, if_true]

theorem base64Decode_one (c1 c2 : Nat) (n1 n2 : Nat)
    (h1 : base64Index c1 = some n1) (h2 : base64Index c2 = some n2) :
    base64Decode [c1, c2, 0x3D, 0x3D] = some [n1 * 4 + n2 / 16] := by
  rw [base64Decode]
  simp only [h1, h2, and_self, if_true]

/-- Standard base64 decoding gives back the bytes that were encoded. -/
theorem base64Decode_base64Encode (s : GoString) (h : GoString.WF s) :
    base64Decode (base64Encode s) = some s := by
  induction s using base64Encode.induct with
  | case1 => rfl
  | case2 a =>
    have ha : a < 256 := h a (by simp)
    rw [base64Encode, base64Decode_one _ _ _ _
      (base64Index_base64Char (a / 4) (by omega))
      (base64Index_base64Char (a % 4 * 16) (by omega))]
    have e : a / 4 * 4 + a % 4 * 16 / 16 = a := by omega
    rw [e]
  | case3 a b =>
    have ha : a < 256 := h a (by simp)
    have hb : b < 256 := h b (by simp)
    rw [base64Encode, base64Decode_two _ _ _ _ _ _
      (base64Index_base64Char (a / 4) (by omega))
      (base64Index_base64Char (a % 4 * 16 + b / 16) (by omega))
      (base64Index_base64Char (b % 16 * 4) (by omega))
      (base64Char_ne_pad (b % 16 * 4) (by omega))]
    have e1 : a / 4 * 4 + (a % 4 * 16 + b / 16) / 16 = a := by omega
    have e2 : (a % 4 * 16 + b / 16) % 16 * 16 + b % 16 * 4 / 4 = b := by omega
    rw [e1, e2]
  | case4 a b c rest ih =>
    have ha : a < 256 := h a (by simp)
    have hb : b < 256 := h b (by simp)
    have hc : c < 256 := h c (by simp)
    have hrest : GoString.WF rest := fun x hx => h x (by simp [hx])
    rw [base64Encode, base64Decode_group _ _ _ _ _ _ _ _ _
      (base64Index_base64Char (a / 4) (by omega))
      (base64Index_base64Char (a % 4 * 16 + b / 16) (by omega))
      (base64Index_base64Char (b % 16 * 4 + c / 64) (by omega))
      (base64Index_base64Char (c % 64) (by omega))
      (base64Char_ne_pad (b % 16 * 4 + c / 64) (by omega))
      (base64Char_ne_pad (c % 64) (by omega)), ih hrest]
    have e1 : a / 4 * 4 + (a % 4 * 16 + b / 16) / 16 = a := by omega
    have e2 : (a % 4 * 16 + b / 16) % 16 * 16 + (b % 16 * 4 + c / 64) / 4 = b := by omega
    have e3 : (b % 16 * 4 + c / 64) % 4 * 64 + c % 64 = c := by omega
    simp only [e1, e2, e3]

theorem base64Encode_alphabet (s : GoString) :
    ∀ ch ∈ base64Encode s, IsBase64Char ch ∨ ch = 0x3D := by
  induction s using base64Encode.induct with
  | case1 => intro ch hch; simp [base64Encode] at hch
  | case2 a =>
    intro ch hch
    simp only [base64Encode, List.mem_cons, List.mem_singleton, List.not_mem_nil, or_false] at hch
    rcases hch with rfl | rfl | rfl | rfl
    · exact Or.inl (isBase64Char_base64Char _)
    · exact Or.inl (isBase64Char_base64Char _)
    · exact Or.inr rfl
    · exact Or.inr rfl
  | case3 a b =>
    intro ch hch
    simp only [base64Encode, List.mem_cons, List.mem_singleton, List.not_mem_nil, or_false] at hch
    rcases hch with rfl | rfl | rfl | rfl
    · exact Or.inl (isBase64Char_base64Char _)
    · exact Or.inl (isBase64Char_base64Char _)
    · exact Or.inl (isBase64Char_base64Char _)
    · exact Or.inr rfl
  | case4 a b c rest ih =>
    intro ch hch
    simp only [base64Encode, List.mem_cons] at hch
    rcases hch with rfl | rfl | rfl | rfl | hch
    · exact Or.inl (isBase64Char_base64Char _)
    · exact Or.inl (isBase64Char_base64Char _)
    · exact Or.inl (isBase64Char_base64Char _)
    · exact Or.inl (isBase64Char_base64Char _)
    · exact ih ch hch

theorem length_base64Encode (s : GoString) :
    (base64Encode s).length = 4 * ((s.length + 2) / 3) := by
  induction s using base64Encode.induct with
  | case1 => rfl
  | case2 a => simp [base64Encode]
  | case3 a b => simp [base64Encode]
  | case4 a b c rest ih =>
    simp only [base64Encode, List.length_cons, ih]
    omega

/-! ## The value modifiers and the remaining comparators -/

/-- C17: for every string of valid Unicode characters `rs`, `wide.Modify`
returns the UTF-16LE encoding of the characters: two bytes for every UTF-16
code unit, the low byte first, and a surrogate pair for every character above
U+FFFF; the byte length is twice the number of code units, and decoding the
bytes as UTF-16LE gives the characters back. -/
theorem wide_is_utf16le (rs : List Nat) (h : ∀ r ∈ rs, ValidRune r) :
    ValueModifier.wide.Modify (Value.str (encodeRunes rs)) = .ok (Value.str (utf16le rs)) ∧
    (utf16le rs).length = 2 * (rs.flatMap utf16Units).length ∧
    (∀ r ∈ rs, 0xFFFF < r → ∃ hi lo, utf16Units r = [hi, lo] ∧
      0xD800 ≤ hi ∧ hi < 0xDC00 ∧ 0xDC00 ≤ lo ∧ lo < 0xE000) ∧
    getUint16s (utf16le rs) = rs.flatMap utf16Units ∧
    utf16Decode (getUint16s (utf16le rs)) = rs := by
  refine ⟨?_, length_utf16le rs, ?_, getUint16s_utf16le rs, ?_⟩
  · rw [wide_Modify_str, runesOf_encodeRunes rs h, putUint16s_utf16Encode rs h]
  · intro r hr hlt
    have hv := h r hr
    unfold ValidRune at hv
    refine ⟨_, _, utf16Units_pair r (by omega), ?_, ?_, ?_, ?_⟩ <;> omega
  · rw [getUint16s_utf16le, utf16Decode_units rs h]

/-- C17, at the characters U+0061, U+00E9 and U+1F600. -/
theorem wide_is_utf16le_witness :
    ValueModifier.wide.Modify (Value.str [0x61, 0xC3, 0xA9, 0xF0, 0x9F, 0x98, 0x80]) =
      .ok (Value.str [0x61, 0x00, 0xE9, 0x00, 0x3D, 0xD8, 0x00, 0xDE]) ∧
    utf16Decode (getUint16s [0x61, 0x00, 0xE9, 0x00, 0x3D, 0xD8, 0x00, 0xDE]) =
      [0x61, 0xE9, 0x1F600] :=
  ⟨(wide_is_utf16le [0x61, 0xE9, 0x1F600] (by decide)).1,
   (wide_is_utf16le [0x61, 0xE9, 0x1F600] (by decide)).2.2.2.2⟩

/-- C18: for every string value `v`, `b64.Modify` returns without error the
standard padded base64 text of the bytes of `v`: its characters are of the
alphabet `A-Z a-z 0-9 + /` or the padding `=`, it has four characters for every
three bytes begun, and standard base64 decoding gives `v` back; the chain
`base64` hands this text to the default comparator of the mode. -/
theorem base64_modifier (caseTable : Nat → Nat) (v : GoString) (h : GoString.WF v)
    (field : Value) :
    ValueModifier.b64.Modify (Value.str v) = .ok (Value.str (base64Encode v)) ∧
    (∀ ch ∈ base64Encode v, IsBase64Char ch ∨ ch = 0x3D) ∧
    (base64Encode v).length = 4 * ((v.length + 2) / 3) ∧
    base64Decode (base64Encode v) = some v ∧
    (∃ f, GetComparator caseTable [lit "base64"] = .ok f ∧
      f field (Value.str v) =
        Comparator.baseComparator.Bridges caseTable field (Value.str (base64Encode v))) ∧
    (∃ f, GetComparatorCaseSensitive caseTable [lit "base64"] = .ok f ∧
      f field (Value.str v) =
        Comparator.baseComparatorCaseSensitive.Bridges caseTable field
          (Value.str (base64Encode v))) :=
  ⟨rfl, base64Encode_alphabet v, length_base64Encode v, base64Decode_base64Encode v h,
    ⟨_, rfl, rfl⟩, ⟨_, rfl, rfl⟩⟩

/-- C18, at the value `abc`, which becomes `YWJj`. -/
theorem base64_modifier_witness :
    ValueModifier.b64.Modify (Value.str (lit "abc")) = .ok (Value.str (lit "YWJj")) ∧
    base64Decode (lit "YWJj") = some (lit "abc") ∧
    (∃ f, GetComparator (fun r => r) [lit "base64"] = .ok f ∧
      f (Value.str (lit "Field")) (Value.str (lit "abc")) = .ok (lit "field=\"ywjj\"")) ∧
    (∃ f, GetComparatorCaseSensitive (fun r => r) [lit "base64"] = .ok f ∧
      f (Value.str (lit "Field")) (Value.str (lit "abc")) = .ok (lit "field=\"YWJj\"")) :=
  ⟨(base64_modifier (fun r => r) (lit "abc") (by decide) (Value.str (lit "Field"))).1,
   (base64_modifier (fun r => r) (lit "abc") (by decide) (Value.str (lit "Field"))).2.2.2.1,
   (base64_modifier (fun r => r) (lit "abc") (by decide) (Value.str (lit "Field"))).2.2.2.2.1,
   (base64_modifier (fun r => r) (lit "abc") (by decide) (Value.str (lit "Field"))).2.2.2.2.2⟩

/-- The template of `re` in terms of the function `EscapeBackslashes`: `re` is
bound to the same comparator in both tables, so both modes give the same
function, and it emits a space, `| regex `, the lower-cased field, `=`, `"`,
what `EscapeBackslashes` returns for the value, not lower-cased, and `"`. -/
theorem re_comparator_output (caseTable : Nat → Nat) (f v : Value) :
    Comparators.lookup (lit "re") = some Comparator.re ∧
    ComparatorsCaseSensitive.lookup (lit "re") = some Comparator.re ∧
    GetComparator caseTable [lit "re"] = GetComparatorCaseSensitive caseTable [lit "re"] ∧
    (∃ g, GetComparator caseTable [lit "re"] = .ok g ∧
      g f v = Comparator.re.Bridges caseTable f v) ∧
    Comparator.re.Bridges caseTable f v =
      .ok ([0x20] ++ lit "| regex " ++ ToLower caseTable (coerceString f) ++ [0x3D, 0x22] ++
        EscapeBackslashes (coerceString v) ++ [0x22]) ∧
    Comparator.re.Bridges caseTable (Value.str (lit "Image")) (Value.str (lit "C:\\Win.*")) =
      .ok (lit " | regex image=\"C:\\\\Win.*\"") := by
  have q : lit " | regex " = [0x20] ++ lit "| regex " := by decide
  refine ⟨by decide, by decide, rfl, ⟨_, rfl, rfl⟩, ?_, rfl⟩
  simp [Comparator.Bridges, q, lit_eq_quote, lit_quote]

/-- C20: `cidr`, `gt`, `gte`, `lt` and `lte` are bound to the same comparators in
both tables, so both modes give the same function; `cidr` emits the lower-cased
field, `=`, and the value between double quotes, the other four emit the
lower-cased field, a space, the operator `>`, `>=`, `<` or `<=`, a space, and
the value between double quotes; the value is emitted as it is. -/
theorem numeric_comparators_output (caseTable : Nat → Nat) (f v : Value) :
    ∀ p ∈ [(lit "cidr", Comparator.cidr, lit "="),
        (lit "gt", Comparator.gt, [0x20] ++ lit ">" ++ [0x20]),
        (lit "gte", Comparator.gte, [0x20] ++ lit ">=" ++ [0x20]),
        (lit "lt", Comparator.lt, [0x20] ++ lit "<" ++ [0x20]),
        (lit "lte", Comparator.lte, [0x20] ++ lit "<=" ++ [0x20])],
      Comparators.lookup p.1 = some p.2.1 ∧
      ComparatorsCaseSensitive.lookup p.1 = some p.2.1 ∧
      GetComparator caseTable [p.1] = GetComparatorCaseSensitive caseTable [p.1] ∧
      (∃ g, GetComparator caseTable [p.1] = .ok g ∧ g f v = p.2.1.Bridges caseTable f v) ∧
      p.2.1.Bridges caseTable f v =
        .ok (ToLower caseTable (coerceString f) ++ p.2.2 ++ [0x22] ++ coerceString v ++
          [0x22]) := by
  have q0 : lit "=\"" = lit "=" ++ [0x22] := by decide
  have q1 : lit " > \"" = [0x20] ++ lit ">" ++ [0x20] ++ [0x22] := by decide
  have q2 : lit " >= \"" = [0x20] ++ lit ">=" ++ [0x20] ++ [0x22] := by decide
  have q3 : lit " < \"" = [0x20] ++ lit "<" ++ [0x20] ++ [0x22] := by decide
  have q4 : lit " <= \"" = [0x20] ++ lit "<=" ++ [0x20] ++ [0x22] := by decide
  intro p hp
  simp only [List.mem_cons, List.mem_singleton, List.not_mem_nil, or_false] at hp
  rcases hp with rfl | rfl | rfl | rfl | rfl
  · exact ⟨by decide, by decide, rfl, ⟨_, rfl, rfl⟩,
      by simp [Comparator.Bridges, q0, lit_quote]⟩
  · exact ⟨by decide, by decide, rfl, ⟨_, rfl, rfl⟩,
      by simp [Comparator.Bridges, q1, lit_quote]⟩
  · exact ⟨by decide, by decide, rfl, ⟨_, rfl, rfl⟩,
      by simp [Comparator.Bridges, q2, lit_quote]⟩
  · exact ⟨by decide, by decide, rfl, ⟨_, rfl, rfl⟩,
      by simp [Comparator.Bridges, q3, lit_quote]⟩
  · exact ⟨by decide, by decide, rfl, ⟨_, rfl, rfl⟩,
      by simp [Comparator.Bridges, q4, lit_quote]⟩

/-- C20, at `gt` with the field `Port` and the value `1024`, and at `cidr` with
the field `SrcIP` and the value `10.0.0.0/8`. -/
theorem numeric_comparators_output_witness :
    Comparator.gt.Bridges (fun r => r) (Value.str (lit "Port")) (Value.str (lit "1024")) =
      .ok (lit "port > \"1024\"") ∧
    Comparator.cidr.Bridges (fun r => r) (Value.str (lit "SrcIP")) (Value.str (lit "10.0.0.0/8")) =
      .ok (lit "srcip=\"10.0.0.0/8\"") :=
  ⟨(numeric_comparators_output (fun r => r) (Value.str (lit "Port")) (Value.str (lit "1024"))
      (lit "gt", Comparator.gt, [0x20] ++ lit ">" ++ [0x20])
      (List.Mem.tail _ (List.Mem.head _))).2.2.2.2,
   (numeric_comparators_output (fun r => r) (Value.str (lit "SrcIP"))
      (Value.str (lit "10.0.0.0/8")) (lit "cidr", Comparator.cidr, lit "=")
      (List.Mem.head _)).2.2.2.2⟩

/-! ## Lemmas on runs of backslashes -/

theorem evenRunsFrom_append_of_not_mem (c rest : GoString) (h : 0x5C ∉ c) :
    evenRunsFrom false (c ++ rest) = evenRunsFrom false rest := by
  induction c with
  | nil => rfl
  | cons b c ih =>
    have hb : b ≠ 0x5C := fun e => h (by simp [e])
    have hc : 0x5C ∉ c := fun e => h (List.mem_cons_of_mem _ e)
    rw [List.cons_append, evenRunsFrom, if_neg hb, ih hc]
    rfl

theorem evenRunsFrom_pair (rest : GoString) :
    evenRunsFrom false (0x5C :: 0x5C :: rest) = evenRunsFrom false rest := by
  simp [evenRunsFrom]

/-- A text made of one chunk for every rune of an escaped rune sequence, with
the chunk of a backslash being one backslash and no other chunk holding a
backslash, is accepted by the scan. -/
theorem evenRunsFrom_flatMap (g : Nat → GoString) (hg5 : g 0x5C = [0x5C])
    (hg : ∀ r, r ≠ 0x5C → 0x5C ∉ g r) (rs : List Nat) :
    evenRunsFrom false ((escapeRunes rs).flatMap g) = true := by
  induction rs with
  | nil => rfl
  | cons r rs ih =>
    rw [escapeRunes_cons, List.flatMap_append]
    by_cases h : r = 0x5C
    · rw [if_pos h]
      have e : ([0x5C, 0x5C] : List Nat).flatMap g = [0x5C, 0x5C] := by
        simp [hg5]
      rw [e]
      exact (evenRunsFrom_pair _).trans ih
    · rw [if_neg h]
      have e : ([r] : List Nat).flatMap g = g r := by simp
      rw [e, evenRunsFrom_append_of_not_mem _ _ (hg r h)]
      exact ih

theorem evenRunsFrom_map (g : Nat → Nat) (hg : ∀ b, g b = 0x5C ↔ b = 0x5C) (s : GoString) :
    ∀ odd, evenRunsFrom odd (s.map g) = evenRunsFrom odd s := by
  induction s with
  | nil => intro odd; rfl
  | cons b s ih =>
    intro odd
    rw [List.map_cons, evenRunsFrom, evenRunsFrom]
    by_cases h : b = 0x5C
    · rw [if_pos h, if_pos ((hg b).2 h), ih]
    · rw [if_neg h, if_neg (fun e => h ((hg b).1 e)), ih]

theorem evenRunsFrom_skip (pre : GoString) :
    ∀ (odd : Bool) (rest : GoString), pre ≠ [] → pre.getLast? ≠ some 0x5C →
      evenRunsFrom odd (pre ++ rest) = true → evenRunsFrom false rest = true := by
  induction pre with
  | nil => intro _ _ h; exact absurd rfl h
  | cons x t ih =>
    intro odd rest _ hlast hrun
    cases t with
    | nil =>
      have hx : x ≠ 0x5C := by
        intro e
        apply hlast
        rw [e]; rfl
      rw [List.cons_append, List.nil_append, evenRunsFrom, if_neg hx] at hrun
      simp only [Bool.and_eq_true] at hrun
      exact hrun.2
    | cons y t' =>
      have hlast' : (y :: t').getLast? ≠ some 0x5C := by
        rw [List.getLast?_cons_cons] at hlast
        exact hlast
      rw [List.cons_append, evenRunsFrom] at hrun
      by_cases hx : x = 0x5C
      · rw [if_pos hx] at hrun
        exact ih _ rest (by simp) hlast' hrun
      · rw [if_neg hx] at hrun
        simp only [Bool.and_eq_true] at hrun
        exact ih _ rest (by simp) hlast' hrun.2

theorem evenRunsFrom_replicate (k : Nat) :
    ∀ (odd : Bool) (post : GoString), post.head? ≠ some 0x5C →
      evenRunsFrom odd (List.replicate k 0x5C ++ post) = true → (Even k ↔ odd = false) := by
  induction k with
  | zero =>
    intro odd post hpost hrun
    rw [List.replicate_zero, List.nil_append] at hrun
    have ho : odd = false := by
      cases post with
      | nil => simpa [evenRunsFrom] using hrun
      | cons x t =>
        have hx : x ≠ 0x5C := by
          intro e
          apply hpost
          rw [e]; rfl
        rw [evenRunsFrom, if_neg hx] at hrun
        simp only [Bool.and_eq_true] at hrun
        simpa using hrun.1
    simp [ho]
  | succ k ih =>
    intro odd post hpost hrun
    rw [List.replicate_succ, List.cons_append, evenRunsFrom, if_pos rfl] at hrun
    have h := ih (!odd) post hpost hrun
    rw [Nat.even_add_one, h]
    cases odd <;> simp

/-- What the scan accepts has only even maximal runs of backslashes. -/
theorem evenBackslashRuns_of_evenRunsFrom (s : GoString)
    (h : evenRunsFrom false s = true) : EvenBackslashRuns s := by
  intro pre k post hs hpre hpost
  rw [hs, List.append_assoc] at h
  by_cases hp : pre = []
  · rw [hp, List.nil_append] at h
    exact (evenRunsFrom_replicate k false post hpost h).2 rfl
  · have h' := evenRunsFrom_skip pre false _ hp hpre h
    exact (evenRunsFrom_replicate k false post hpost h').2 rfl

theorem endsInEven_of_evenBackslashRuns (s : GoString) (h : EvenBackslashRuns s) :
    EndsInEvenBackslashes s := by
  intro pre k hs hpre
  exact h pre k [] (by rw [hs, List.append_nil]) hpre (by simp)

theorem evenRunsFrom_EscapeBackslashes (s : GoString) :
    evenRunsFrom false (EscapeBackslashes s) = true := by
  rw [EscapeBackslashes_eq]
  exact evenRunsFrom_flatMap encodeRune (by decide) not_mem_encodeRune (runesOf s)

theorem unicodeToLower_backslash (caseTable : Nat → Nat)
    (hct : ∀ r, 0x7F < r → caseTable r ≠ 0x5C) (r : Nat) (h : r ≠ 0x5C) :
    unicodeToLower caseTable r ≠ 0x5C := by
  unfold unicodeToLower
  split_ifs with h1 h2
  · omega
  · exact h
  · exact hct r (by omega)

theorem evenRunsFrom_ToLower_EscapeBackslashes (caseTable : Nat → Nat)
    (hct : ∀ r, 0x7F < r → caseTable r ≠ 0x5C) (s : GoString) :
    evenRunsFrom false (ToLower caseTable (EscapeBackslashes s)) = true := by
  unfold ToLower
  split_ifs with hascii
  · rw [evenRunsFrom_map _ _ (EscapeBackslashes s) false]
    · exact evenRunsFrom_EscapeBackslashes s
    · intro b
      split_ifs <;> omega
  · rw [runesOf_EscapeBackslashes]
    refine evenRunsFrom_flatMap (fun c => encodeRune (unicodeToLower caseTable c)) rfl ?_
      (runesOf s)
    intro r hr
    exact not_mem_encodeRune _ (unicodeToLower_backslash caseTable hct r hr)

/-- Behind a text that ends in a byte other than a backslash, the backslashes
at the end are those of the text that follows. -/
theorem endsInEven_append (head V : GoString) (x : Nat) (hx : head.getLast? = some x)
    (hne : x ≠ 0x5C) (hV : EndsInEvenBackslashes V) : EndsInEvenBackslashes (head ++ V) := by
  intro pre k hs hpre
  rcases List.append_eq_append_iff.1 hs with ⟨a, hpa, hVa⟩ | ⟨c, hhc, hrc⟩
  · refine hV a k hVa ?_
    by_cases ha : a = []
    · rw [ha]; simp
    · rw [hpa, List.getLast?_append_of_ne_nil _ ha] at hpre
      exact hpre
  · by_cases hc : c = []
    · rw [hc, List.nil_append] at hrc
      exact hV [] k hrc.symm (by simp)
    · exfalso
      rw [hhc, List.getLast?_append_of_ne_nil _ hc] at hx
      have hmem : x ∈ List.replicate k 0x5C := by
        rw [hrc]
        exact List.mem_append_left _ (List.mem_of_getLast?_eq_some hx)
      exact hne (List.eq_of_mem_replicate hmem)

theorem endsInEven_EscapeBackslashes (s : GoString) :
    EndsInEvenBackslashes (EscapeBackslashes s) :=
  endsInEven_of_evenBackslashRuns _
    (evenBackslashRuns_of_evenRunsFrom _ (evenRunsFrom_EscapeBackslashes s))

theorem endsInEven_ToLower_EscapeBackslashes (caseTable : Nat → Nat)
    (hct : ∀ r, 0x7F < r → caseTable r ≠ 0x5C) (s : GoString) :
    EndsInEvenBackslashes (ToLower caseTable (EscapeBackslashes s)) :=
  endsInEven_of_evenBackslashRuns _
    (evenBackslashRuns_of_evenRunsFrom _ (evenRunsFrom_ToLower_EscapeBackslashes caseTable hct s))

theorem getLast?_append_eq_quote (a : GoString) : (a ++ lit "=\"").getLast? = some 0x22 := by
  rw [lit_eq_quote]; simp

theorem getLast?_append_eq_quote_star (a : GoString) :
    (a ++ lit "=\"*").getLast? = some 0x2A := by
  rw [lit_eq_quote_star]; simp

/-- C21: for every input string every maximal run of consecutive backslashes in
the output of `EscapeBackslashes` has even length, so the output ends in an
even number of backslashes; the default comparator (outside the
nil-field/"null" case), `contains`, `endswith`, `startswith` and `re` emit an
opening part that ends in `"` or `*`, then the escaped value, then the suffix
`"` or `*"`, and the text in front of that suffix ends in an even number of
backslashes.  For the insensitive comparators, which lower-case the escaped
value first, this holds for every case table of `unicode.ToLower` that maps no
rune above U+007F to the backslash. -/
theorem backslash_runs_even (caseTable : Nat → Nat) (s : GoString) (f v : Value) :
    EvenBackslashRuns (EscapeBackslashes s) ∧
    EndsInEvenBackslashes (EscapeBackslashes s) ∧
    (¬ (f = Value.nil ∧ v = Value.str (lit "null")) →
      ∀ p ∈ [(Comparator.baseComparatorCaseSensitive,
            ToLower caseTable (coerceString f) ++ lit "=\"", lit "\""),
          (Comparator.containsCS, ToLower caseTable (coerceString f) ++ lit "=\"*", lit "*\""),
          (Comparator.endswithCS, ToLower caseTable (coerceString f) ++ lit "=\"*", lit "\""),
          (Comparator.startswithCS, ToLower caseTable (coerceString f) ++ lit "=\"", lit "*\""),
          (Comparator.re, lit " | regex " ++ ToLower caseTable (coerceString f) ++ lit "=\"",
            lit "\"")],
        p.1.Bridges caseTable f v =
          .ok (p.2.1 ++ EscapeBackslashes (coerceString v) ++ p.2.2) ∧
        EndsInEvenBackslashes (p.2.1 ++ EscapeBackslashes (coerceString v))) ∧
    ((∀ r, 0x7F < r → caseTable r ≠ 0x5C) →
      ¬ (f = Value.nil ∧ v = Value.str (lit "null")) →
      ∀ p ∈ [(Comparator.baseComparator,
            ToLower caseTable (coerceString f) ++ lit "=\"", lit "\""),
          (Comparator.contains, ToLower caseTable (coerceString f) ++ lit "=\"*", lit "*\""),
          (Comparator.endswith, ToLower caseTable (coerceString f) ++ lit "=\"*", lit "\""),
          (Comparator.startswith, ToLower caseTable (coerceString f) ++ lit "=\"", lit "*\"")],
        p.1.Bridges caseTable f v =
          .ok (p.2.1 ++ ToLower caseTable (EscapeBackslashes (coerceString v)) ++ p.2.2) ∧
        EndsInEvenBackslashes
          (p.2.1 ++ ToLower caseTable (EscapeBackslashes (coerceString v)))) := by
  have hq : (0x22 : Nat) ≠ 0x5C := by decide
  have hs : (0x2A : Nat) ≠ 0x5C := by decide
  have hV := endsInEven_EscapeBackslashes (coerceString v)
  refine ⟨evenBackslashRuns_of_evenRunsFrom _ (evenRunsFrom_EscapeBackslashes s),
    endsInEven_EscapeBackslashes s, ?_, ?_⟩
  · intro h p hp
    simp only [List.mem_cons, List.mem_singleton, List.not_mem_nil, or_false] at hp
    rcases hp with rfl | rfl | rfl | rfl | rfl
    · exact ⟨by simp only [Comparator.Bridges, if_neg h],
        endsInEven_append _ _ _ (getLast?_append_eq_quote _) hq hV⟩
    · exact ⟨rfl, endsInEven_append _ _ _ (getLast?_append_eq_quote_star _) hs hV⟩
    · exact ⟨rfl, endsInEven_append _ _ _ (getLast?_append_eq_quote_star _) hs hV⟩
    · exact ⟨rfl, endsInEven_append _ _ _ (getLast?_append_eq_quote _) hq hV⟩
    · exact ⟨rfl, endsInEven_append _ _ _ (getLast?_append_eq_quote _) hq hV⟩
  · intro hct h p hp
    have hL := endsInEven_ToLower_EscapeBackslashes caseTable hct (coerceString v)
    simp only [List.mem_cons, List.mem_singleton, List.not_mem_nil, or_false] at hp
    rcases hp with rfl | rfl | rfl | rfl
    · exact ⟨by simp only [Comparator.Bridges, if_neg h],
        endsInEven_append _ _ _ (getLast?_append_eq_quote _) hq hL⟩
    · exact ⟨rfl, endsInEven_append _ _ _ (getLast?_append_eq_quote_star _) hs hL⟩
    · exact ⟨rfl, endsInEven_append _ _ _ (getLast?_append_eq_quote_star _) hs hL⟩
    · exact ⟨rfl, endsInEven_append _ _ _ (getLast?_append_eq_quote _) hq hL⟩

set_option maxRecDepth 100000 in
/-- C21, at the value `C:\`, whose escaped text `C:\\` ends in two backslashes,
under `containsCS` and `contains` with the field `Path`. -/
theorem backslash_runs_even_witness :
    EscapeBackslashes (lit "C:\\") = lit "C:" ++ List.replicate 2 0x5C ∧
    Even 2 ∧
    Comparator.containsCS.Bridges (fun r => r) (Value.str (lit "Path")) (Value.str (lit "C:\\")) =
      .ok (lit "path=\"*C:\\\\*\"") ∧
    Comparator.contains.Bridges (fun r => r) (Value.str (lit "Path")) (Value.str (lit "C:\\")) =
      .ok (lit "path=\"*c:\\\\*\"") :=
  ⟨by decide,
   (backslash_runs_even (fun r => r) (lit "C:\\") (Value.str (lit "Path"))
      (Value.str (lit "C:\\"))).2.1 (lit "C:") 2 (by decide) (by decide),
   ((backslash_runs_even (fun r => r) (lit "C:\\") (Value.str (lit "Path"))
      (Value.str (lit "C:\\"))).2.2.1 (by decide) _ (List.Mem.tail _ (List.Mem.head _))).1,
   ((backslash_runs_even (fun r => r) (lit "C:\\") (Value.str (lit "Path"))
      (Value.str (lit "C:\\"))).2.2.2 (fun r hr => by omega) (by decide) _
      (List.Mem.tail _ (List.Mem.head _))).1⟩

/-! ## The comparators against the escaping of the specification -/

/-- On a value whose text is valid UTF-8 the nine escaping comparators emit the
backslash-escaped value of the specification, `doubleBackslashes`: every
backslash of the value replaced by two and every other byte kept; the
insensitive default, `contains`, `endswith` and `startswith` lower-case it. -/
theorem escaping_comparators_valid_utf8 (caseTable : Nat → Nat) (f v : Value)
    (hv : IsUTF8 (coerceString v))
    (h : ¬ (f = Value.nil ∧ v = Value.str (lit "null"))) :
    (∀ p ∈ [(Comparator.baseComparator, lit "", lit ""),
        (Comparator.contains, lit "*", lit "*"),
        (Comparator.endswith, lit "*", lit ""),
        (Comparator.startswith, lit "", lit "*")],
      p.1.Bridges caseTable f v =
        .ok (ToLower caseTable (coerceString f) ++ lit "=" ++ [0x22] ++ p.2.1 ++
          ToLower caseTable (doubleBackslashes (coerceString v)) ++ p.2.2 ++ [0x22])) ∧
    (∀ p ∈ [(Comparator.baseComparatorCaseSensitive, lit "", lit ""),
        (Comparator.containsCS, lit "*", lit "*"),
        (Comparator.endswithCS, lit "*", lit ""),
        (Comparator.startswithCS, lit "", lit "*")],
      p.1.Bridges caseTable f v =
        .ok (ToLower caseTable (coerceString f) ++ lit "=" ++ [0x22] ++ p.2.1 ++
          doubleBackslashes (coerceString v) ++ p.2.2 ++ [0x22])) ∧
    Comparator.re.Bridges caseTable f v =
      .ok (lit " | regex " ++ ToLower caseTable (coerceString f) ++ lit "=" ++ [0x22] ++
        doubleBackslashes (coerceString v) ++ [0x22]) := by
  have e := EscapeBackslashes_of_isUTF8 _ hv
  have t := comparators_quoted_value caseTable f v h
  rw [e] at t
  exact ⟨t.1, t.2.1, t.2.2.1⟩

/-- The escaping comparators at the value `C:\Temp`, whose one backslash is
emitted twice. -/
theorem escaping_comparators_example :
    doubleBackslashes (lit "C:\\Temp") = lit "C:\\\\Temp" ∧
    Comparator.baseComparatorCaseSensitive.Bridges (fun r => r) (Value.str (lit "Path"))
      (Value.str (lit "C:\\Temp")) = .ok (lit "path=\"C:\\\\Temp\"") ∧
    Comparator.baseComparator.Bridges (fun r => r) (Value.str (lit "Path"))
      (Value.str (lit "C:\\Temp")) = .ok (lit "path=\"c:\\\\temp\"") ∧
    Comparator.containsCS.Bridges (fun r => r) (Value.str (lit "Path"))
      (Value.str (lit "C:\\Temp")) = .ok (lit "path=\"*C:\\\\Temp*\"") ∧
    Comparator.re.Bridges (fun r => r) (Value.str (lit "Path"))
      (Value.str (lit "C:\\Temp")) = .ok (lit " | regex path=\"C:\\\\Temp\"") :=
  ⟨by decide, rfl, rfl, rfl, rfl⟩

/-- C5 fails on a value that is not valid UTF-8.  The two bytes `E9 00` are what
`wide` makes of the one-character value U+00E9; the backslash-escaped value of
the specification is the value itself, as it holds no backslash, yet the
default comparator of the sensitive mode puts the four bytes `EF BF BD 00`
between the quotes, because `EscapeBackslashes` rewrites the byte `E9` to
U+FFFD. -/
theorem default_comparator_invalid_utf8 :
    ValueModifier.wide.Modify (Value.str [0xC3, 0xA9]) = .ok (Value.str [0xE9, 0x00]) ∧
    GoString.WF [0xE9, 0x00] ∧
    doubleBackslashes [0xE9, 0x00] = [0xE9, 0x00] ∧
    GetComparatorCaseSensitive (fun r => r) [] =
      .ok (Comparator.baseComparatorCaseSensitive.Bridges (fun r => r)) ∧
    Comparator.baseComparatorCaseSensitive.Bridges (fun r => r) (Value.str (lit "f"))
      (Value.str [0xE9, 0x00]) = .ok (lit "f=\"" ++ [0xEF, 0xBF, 0xBD, 0x00] ++ lit "\"") ∧
    Comparator.baseComparatorCaseSensitive.Bridges (fun r => r) (Value.str (lit "f"))
      (Value.str [0xE9, 0x00]) ≠
        .ok (lit "f=\"" ++ doubleBackslashes [0xE9, 0x00] ++ lit "\"") :=
  ⟨rfl, by decide, by decide, rfl, rfl,
    fun he => absurd (Except.ok.inj he) (by decide)⟩

/-- C7 fails on a value that is not valid UTF-8.  For the two bytes `E9 00`,
which hold no backslash, the backslash-escaped value of the specification is
the value itself, yet `containsCS`, `endswithCS` and `startswithCS` put the four
bytes `EF BF BD 00` between the wildcard markers, because `EscapeBackslashes`
rewrites the byte `E9` to U+FFFD. -/
theorem wildcard_comparators_invalid_utf8 :
    ValueModifier.wide.Modify (Value.str [0xC3, 0xA9]) = .ok (Value.str [0xE9, 0x00]) ∧
    doubleBackslashes [0xE9, 0x00] = [0xE9, 0x00] ∧
    ComparatorsCaseSensitive.lookup (lit "contains") = some Comparator.containsCS ∧
    Comparator.containsCS.Bridges (fun r => r) (Value.str (lit "f")) (Value.str [0xE9, 0x00]) =
      .ok (lit "f=\"*" ++ [0xEF, 0xBF, 0xBD, 0x00] ++ lit "*\"") ∧
    Comparator.containsCS.Bridges (fun r => r) (Value.str (lit "f")) (Value.str [0xE9, 0x00]) ≠
      .ok (lit "f=\"*" ++ doubleBackslashes [0xE9, 0x00] ++ lit "*\"") ∧
    Comparator.endswithCS.Bridges (fun r => r) (Value.str (lit "f")) (Value.str [0xE9, 0x00]) =
      .ok (lit "f=\"*" ++ [0xEF, 0xBF, 0xBD, 0x00] ++ lit "\"") ∧
    Comparator.endswithCS.Bridges (fun r => r) (Value.str (lit "f")) (Value.str [0xE9, 0x00]) ≠
      .ok (lit "f=\"*" ++ doubleBackslashes [0xE9, 0x00] ++ lit "\"") ∧
    Comparator.startswithCS.Bridges (fun r => r) (Value.str (lit "f")) (Value.str [0xE9, 0x00]) =
      .ok (lit "f=\"" ++ [0xEF, 0xBF, 0xBD, 0x00] ++ lit "*\"") ∧
    Comparator.startswithCS.Bridges (fun r => r) (Value.str (lit "f")) (Value.str [0xE9, 0x00]) ≠
      .ok (lit "f=\"" ++ doubleBackslashes [0xE9, 0x00] ++ lit "*\"") :=
  ⟨rfl, by decide, by decide, rfl,
    fun he => absurd (Except.ok.inj he) (by decide), rfl,
    fun he => absurd (Except.ok.inj he) (by decide), rfl,
    fun he => absurd (Except.ok.inj he) (by decide)⟩

/-- C8 fails for `cidr`, `gt`, `gte`, `lt` and `lte`: they put the value between
the quotes without escaping it.  On the value `x\` the comparator `gt` emits
`f > "x\"`, where one backslash stands before the closing quote, while the
backslash-escaped value is `x\\` and the sibling `re` emits it. -/
theorem numeric_comparators_unescaped :
    doubleBackslashes (lit "x\\") = lit "x\\\\" ∧
    Comparator.re.Bridges (fun r => r) (Value.str (lit "f")) (Value.str (lit "x\\")) =
      .ok (lit " | regex f=\"" ++ doubleBackslashes (lit "x\\") ++ lit "\"") ∧
    Comparator.gt.Bridges (fun r => r) (Value.str (lit "f")) (Value.str (lit "x\\")) =
      .ok (lit "f > \"x\\\"") ∧
    Comparator.gt.Bridges (fun r => r) (Value.str (lit "f")) (Value.str (lit "x\\")) ≠
      .ok (lit "f > \"" ++ doubleBackslashes (lit "x\\") ++ lit "\"") ∧
    ¬ EndsInEvenBackslashes (lit "f > \"x\\") ∧
    Comparator.gte.Bridges (fun r => r) (Value.str (lit "f")) (Value.str (lit "x\\")) =
      .ok (lit "f >= \"x\\\"") ∧
    Comparator.lt.Bridges (fun r => r) (Value.str (lit "f")) (Value.str (lit "x\\")) =
      .ok (lit "f < \"x\\\"") ∧
    Comparator.lte.Bridges (fun r => r) (Value.str (lit "f")) (Value.str (lit "x\\")) =
      .ok (lit "f <= \"x\\\"") ∧
    Comparator.cidr.Bridges (fun r => r) (Value.str (lit "f")) (Value.str (lit "x\\")) =
      .ok (lit "f=\"x\\\"") ∧
    Comparator.cidr.Bridges (fun r => r) (Value.str (lit "f")) (Value.str (lit "x\\")) ≠
      .ok (lit "f=\"" ++ doubleBackslashes (lit "x\\") ++ lit "\"") :=
  ⟨by decide, rfl, rfl,
    fun he => absurd (Except.ok.inj he) (by decide),
    fun he => absurd (he (lit "f > \"x") 1 (by decide) (by decide)) (by decide),
    rfl, rfl, rfl, rfl,
    fun he => absurd (Except.ok.inj he) (by decide)⟩

/-- C19 fails on a value that is not valid UTF-8.  For the two bytes `E9 00`,
which hold no backslash, the backslash-escaped value of the specification is
the value itself, yet `re`, in both modes, puts the four bytes `EF BF BD 00`
between the quotes, because `EscapeBackslashes` rewrites the byte `E9` to
U+FFFD. -/
theorem re_comparator_invalid_utf8 :
    ValueModifier.wide.Modify (Value.str [0xC3, 0xA9]) = .ok (Value.str [0xE9, 0x00]) ∧
    doubleBackslashes [0xE9, 0x00] = [0xE9, 0x00] ∧
    Comparators.lookup (lit "re") = some Comparator.re ∧
    ComparatorsCaseSensitive.lookup (lit "re") = some Comparator.re ∧
    Comparator.re.Bridges (fun r => r) (Value.str (lit "f")) (Value.str [0xE9, 0x00]) =
      .ok (lit " | regex f=\"" ++ [0xEF, 0xBF, 0xBD, 0x00] ++ lit "\"") ∧
    Comparator.re.Bridges (fun r => r) (Value.str (lit "f")) (Value.str [0xE9, 0x00]) ≠
      .ok (lit " | regex f=\"" ++ doubleBackslashes [0xE9, 0x00] ++ lit "\"") ∧
    (∃ g, GetComparator (fun r => r) [lit "wide", lit "re"] = .ok g ∧
      g (Value.str (lit "f")) (Value.str [0xC3, 0xA9]) =
        .ok (lit " | regex f=\"" ++ [0xEF, 0xBF, 0xBD, 0x00] ++ lit "\"")) :=
  ⟨rfl, by decide, by decide, by decide, rfl,
    fun he => absurd (Except.ok.inj he) (by decide), ⟨_, rfl, rfl⟩⟩

end Bridge
